import Mathlib

set_option maxHeartbeats 1000000
set_option maxRecDepth 8000

/-
Verification of the site-response alignment engine (qopen/site.py).

Shallow embedding conventions:
* Station and event identifiers are abstracted to natural numbers.
* Numeric values are rationals; the properties under study are algebraic
  identities of the code, settled over exact arithmetic.
* A missing measurement (Python `None` or `NaN`) is `none`; the source tests
  `x is None or np.isnan(x)` and treats the two sentinels identically.
* The least-squares solvers (`scipy.sparse.linalg.lsmr`,
  `scipy.linalg.lstsq`) are external numerical routines; they are modelled
  by the predicate `IsLSQSolution`, "is a least-squares solution of the
  assembled system", which is the documented contract of both.
-/

namespace Qopen

/-- One event's record: the per-band source energies `W` and, per station,
the per-band site amplifications `R` (an association list mirroring the
Python dict in insertion order).  This is `results['events'][evid]`. -/
structure EventRes where
  W : List (Option ℚ)
  R : List (ℕ × List (Option ℚ))
deriving DecidableEq

/-- The result set handed to `align_site_responses`: the `events` dict;
an event's record may be `None` (lines 181-183 drop those). -/
structure Results where
  events : List (ℕ × Option EventRes)
deriving DecidableEq

/-! ### `_merge_sets` (site.py lines 80-91)

`_merge_sets` repeatedly runs a pass over the current list of sets; the
pass threads an accumulator `newsets`, merging each set into the first
accumulated set it intersects (`eachset.update(aset)` keeps the position)
and appending it otherwise.  The outer `while` repeats passes until a pass
leaves the number of sets unchanged.  The loop terminates because a pass
never increases the length and every continuing iteration strictly
decreases it; `mergeLoop` carries that bound as fuel. -/

variable {α : Type*} [DecidableEq α]

/-- One step of the inner `for aset in sets` loop: place `a` into the
accumulated list, merging it into the first non-disjoint member
(`if not aset.isdisjoint(eachset): eachset.update(aset); break`),
appending it at the end otherwise (the `for ... else` branch). -/
def insertSet (a : Finset α) : List (Finset α) → List (Finset α)
  | [] => [a]
  | s :: rest => if s ∩ a = ∅ then s :: insertSet a rest else (s ∪ a) :: rest

/-- One full pass of the `while` body over the current list of sets. -/
def mergePass (l : List (Finset α)) : List (Finset α) :=
  l.foldl (fun acc a => insertSet a acc) []

/-- The `while len(sets) != len(newsets)` loop.  `fuel` bounds the number
of iterations; `mergeSets` supplies `l.length + 1`, which suffices because
the length strictly decreases on every continuing iteration. -/
def mergeLoop : ℕ → List (Finset α) → List (Finset α)
  | 0, cur => cur
  | fuel + 1, cur =>
      let nxt := mergePass cur
      if nxt.length = cur.length then nxt else mergeLoop fuel nxt

/-- `_merge_sets`.  The initial state is `sets = []`, `newsets = input`,
so an empty input returns immediately; otherwise the loop body runs. -/
def mergeSets (l : List (Finset α)) : List (Finset α) :=
  if l.length = 0 then l else mergeLoop (l.length + 1) l

/-! ### `_find_unconnected_areas` (site.py lines 94-108) -/

/-- The set of stations of one event having a valid (non-None, non-NaN)
amplification at band `freqi`:
`{sta for sta, Rsta in R.items() if Rsta[freqi] is not None and not np.isnan(...)}`. -/
def validSet (eres : EventRes) (i : ℕ) : Finset ℕ :=
  ((eres.R.filter (fun p => ((p.2[i]?).getD none).isSome)).map Prod.fst).toFinset

/-- `_find_unconnected_areas`: collect the nonempty per-event valid-station
sets and merge them.  The Python function wraps the merged sets into a dict
keyed by an arbitrary member (`{list(a)[0]: a for a in areas}`); the merged
sets are pairwise disjoint and nonempty, so no key collision occurs and the
dict carries exactly the listed sets.  The model returns the list of sets. -/
def findUnconnectedAreas (events : List (ℕ × EventRes)) (i : ℕ) :
    List (Finset ℕ) :=
  mergeSets ((events.map (fun p => validSet p.2 i)).filter (fun a => a ≠ ∅))

/-! ### `_rescale_results` (site.py lines 58-72) -/

/-- Rescaling of one event record (enumeration index `k`, per-band factors
`fk`): for each band `i`, when `W[i]` is a valid number it is divided by
`fk i` and every valid station amplification at band `i` is multiplied by
`fk i`; when `W[i]` is None/NaN the source's `continue` skips the whole
event at this band, leaving the amplifications untouched as well.
The source iterates bands in the outer loop and events in the inner one;
the updates are independent per (event, band) cell, so the per-event
regrouping used here is cellwise identical. -/
def scaleW (fk : ℕ → ℚ) : ℕ → List (Option ℚ) → List (Option ℚ)
  | _, [] => []
  | i, w? :: rest => w?.map (fun w => w / fk i) :: scaleW fk (i + 1) rest

/-- Per-band scaling of one station's amplification list; the gate
`(W.getD i none).isSome` is the source's `continue` on invalid `W[i]`. -/
def scaleRsta (fk : ℕ → ℚ) (W : List (Option ℚ)) :
    ℕ → List (Option ℚ) → List (Option ℚ)
  | _, [] => []
  | i, v? :: rest =>
      (if ((W[i]?).getD none).isSome then v?.map (fun v => v * fk i) else v?)
        :: scaleRsta fk W (i + 1) rest

def rescaleEventRes (fk : ℕ → ℚ) (eres : EventRes) : EventRes :=
  { W := scaleW fk 0 eres.W
    R := eres.R.map (fun p => (p.1, scaleRsta fk eres.W 0 p.2)) }

/-- `_rescale_results`: `factors k i` is `factors[k, i]`, `k` being the
enumeration index of the event in `results['events'].items()`. -/
def rescaleGo (factors : ℕ → ℕ → ℚ) : ℕ → List (ℕ × EventRes) → List (ℕ × EventRes)
  | _, [] => []
  | k, p :: rest => (p.1, rescaleEventRes (factors k) p.2) :: rescaleGo factors (k + 1) rest

def rescaleResults (events : List (ℕ × EventRes)) (factors : ℕ → ℕ → ℚ) :
    List (ℕ × EventRes) :=
  rescaleGo factors 0 events

/-! Observation extractors, used to state the claims. -/

/-- The source-energy value of the event at enumeration index `k`,
band `i` (`results['events'][evid]['W'][i]`). -/
def getW (events : List (ℕ × EventRes)) (k i : ℕ) : Option ℚ :=
  (events[k]?).bind (fun p => (p.2.W[i]?).getD none)

/-- The amplification of station `sta` in the event at enumeration index
`k`, band `i` (`results['events'][evid]['R'][sta][i]`). -/
def getR (events : List (ℕ × EventRes)) (k sta i : ℕ) : Option ℚ :=
  (events[k]?).bind (fun p => (p.2.R.lookup sta).bind (fun vals => (vals[i]?).getD none))

/-! Structural facts about the rescaling. -/

theorem scaleW_getElem (fk : ℕ → ℚ) (W : List (Option ℚ)) :
    ∀ (n j : ℕ), (scaleW fk n W)[j]? = (W[j]?).map (fun w? => w?.map (fun w => w / fk (n + j))) := by
  induction W with
  | nil => intro n j; simp [scaleW]
  | cons w? rest ih =>
      intro n j
      cases j with
      | zero => simp [scaleW]
      | succ j =>
          simp only [scaleW, List.getElem?_cons_succ]
          rw [show n + (j + 1) = n + 1 + j by omega]
          exact ih (n + 1) j

theorem scaleRsta_getElem (fk : ℕ → ℚ) (W : List (Option ℚ)) (vals : List (Option ℚ)) :
    ∀ (n j : ℕ), (scaleRsta fk W n vals)[j]? =
      (vals[j]?).map (fun v? =>
        if ((W[n + j]?).getD none).isSome then v?.map (fun v => v * fk (n + j)) else v?) := by
  induction vals with
  | nil => intro n j; simp [scaleRsta]
  | cons v? rest ih =>
      intro n j
      cases j with
      | zero => simp [scaleRsta]
      | succ j =>
          simp only [scaleRsta, List.getElem?_cons_succ]
          rw [show n + (j + 1) = n + 1 + j by omega]
          exact ih (n + 1) j

theorem lookup_map_snd {β γ : Type*} (R : List (ℕ × β)) (h : β → γ) (sta : ℕ) :
    (R.map (fun p => (p.1, h p.2))).lookup sta = (R.lookup sta).map h := by
  induction R with
  | nil => simp
  | cons p rest ih =>
      simp only [List.map_cons, List.lookup]
      cases hb : sta == p.1 <;> simp [ih]

theorem rescaleGo_getElem (factors : ℕ → ℕ → ℚ) (events : List (ℕ × EventRes)) :
    ∀ (n k : ℕ), (rescaleGo factors n events)[k]? =
      (events[k]?).map (fun p => (p.1, rescaleEventRes (factors (n + k)) p.2)) := by
  induction events with
  | nil => intro n k; simp [rescaleGo]
  | cons p rest ih =>
      intro n k
      cases k with
      | zero => simp [rescaleGo]
      | succ k =>
          simp only [rescaleGo, List.getElem?_cons_succ]
          rw [show n + (k + 1) = n + 1 + k by omega]
          exact ih (n + 1) k

/-- C1: for an event and band where both the source energy and a station's
amplification are valid, `_rescale_results` divides the energy and
multiplies the amplification by the same (positive) factor, so the product
source-energy x amplification is unchanged. -/
theorem rescale_product_invariant (events : List (ℕ × EventRes))
    (factors : ℕ → ℕ → ℚ) (k i sta : ℕ) (w r : ℚ)
    (hw : getW events k i = some w) (hr : getR events k sta i = some r)
    (hf : 0 < factors k i) :
    getW (rescaleResults events factors) k i = some (w / factors k i) ∧
    getR (rescaleResults events factors) k sta i = some (r * factors k i) ∧
    (w / factors k i) * (r * factors k i) = w * r := by
  have hf' : factors k i ≠ 0 := ne_of_gt hf
  obtain ⟨p, hp, hW⟩ : ∃ p, events[k]? = some p ∧ p.2.W[i]? = some (some w) := by
    unfold getW at hw
    cases h : events[k]? with
    | none => rw [h] at hw; simp at hw
    | some p =>
        rw [h] at hw
        have hw2 : (p.2.W[i]?).getD none = some w := hw
        cases h2 : p.2.W[i]? with
        | none => rw [h2] at hw2; simp at hw2
        | some w? => rw [h2] at hw2; simp at hw2; exact ⟨p, rfl, by rw [h2, hw2]⟩
  obtain ⟨vals, hv, hr'⟩ :
      ∃ vals, p.2.R.lookup sta = some vals ∧ vals[i]? = some (some r) := by
    unfold getR at hr
    rw [hp] at hr
    have hr2 : (p.2.R.lookup sta).bind (fun vals => (vals[i]?).getD none) = some r := hr
    cases h : p.2.R.lookup sta with
    | none => rw [h] at hr2; simp at hr2
    | some vals =>
        rw [h] at hr2
        have hr3 : (vals[i]?).getD none = some r := hr2
        cases h2 : vals[i]? with
        | none => rw [h2] at hr3; simp at hr3
        | some v? => rw [h2] at hr3; simp at hr3; exact ⟨vals, rfl, by rw [h2, hr3]⟩
  have hnew : (rescaleResults events factors)[k]? =
      some (p.1, rescaleEventRes (factors k) p.2) := by
    simp [rescaleResults, rescaleGo_getElem, hp]
  refine ⟨?_, ?_, ?_⟩
  · simp [getW, hnew, rescaleEventRes, scaleW_getElem, hW]
  · simp [getR, hnew, rescaleEventRes, lookup_map_snd, hv, scaleRsta_getElem, hr', hW]
  · field_simp
    ring

/-- Concrete result set for the C1 witness: one event with `W = [6]` and
station 7 amplification `[2]`. -/
def cEventsC1 : List (ℕ × EventRes) := [(0, ⟨[some 6], [(7, [some 2])]⟩)]

def cFactorsC1 : ℕ → ℕ → ℚ := fun _ _ => 3

/-- Witness for C1 at a concrete input (factor 3, energy 6, amplification 2). -/
theorem rescale_product_invariant_witness :
    getW cEventsC1 0 0 = some 6 ∧ getR cEventsC1 0 7 0 = some 2 ∧
    (0 : ℚ) < cFactorsC1 0 0 ∧
    (getW (rescaleResults cEventsC1 cFactorsC1) 0 0 = some (6 / cFactorsC1 0 0) ∧
     getR (rescaleResults cEventsC1 cFactorsC1) 0 7 0 = some (2 * cFactorsC1 0 0) ∧
     (6 / cFactorsC1 0 0) * (2 * cFactorsC1 0 0) = 6 * 2) :=
  ⟨by decide, by decide, by norm_num [cFactorsC1],
   rescale_product_invariant cEventsC1 cFactorsC1 0 0 7 6 2 (by decide) (by decide)
     (by norm_num [cFactorsC1])⟩

/-- Concrete result set for the C2 counterexample: one event whose
source energy at the only band is missing (`W = [None]`) while station 7
has the valid amplification 2. -/
def cEventsC2 : List (ℕ × EventRes) := [(0, ⟨[none], [(7, [some 2])]⟩)]

def cFactorsC2 : ℕ → ℕ → ℚ := fun _ _ => 3

/-- C2 counterexample: with a missing source energy at the band, the code's
`continue` skips the whole event, so the valid amplification 2 is NOT
multiplied by the factor 3 — it stays 2, contradicting the claim that
amplification rescaling skips only invalid amplification entries. -/
theorem rescale_cex_amplification_not_scaled :
    getR cEventsC2 0 7 0 = some 2 ∧
    getR (rescaleResults cEventsC2 cFactorsC2) 0 7 0 = some 2 ∧
    getR (rescaleResults cEventsC2 cFactorsC2) 0 7 0 ≠ some 6 := by
  refine ⟨by decide, by decide, ?_⟩
  decide

/-- C2 amended: `_rescale_results` rescales an amplification value only
when the event's source energy at that band is itself valid; when
`W[e][f]` is None/NaN the whole event is skipped at that band — the energy
and every station amplification of that event at that band stay unchanged
(energy skipping and amplification skipping are NOT independent). -/
theorem rescale_amplification_requires_valid_energy
    (events : List (ℕ × EventRes)) (factors : ℕ → ℕ → ℚ) (k i : ℕ)
    (p : ℕ × EventRes) (hp : events[k]? = some p)
    (hw : (p.2.W[i]?).getD none = none) :
    getW (rescaleResults events factors) k i = none ∧
    ∀ sta, getR (rescaleResults events factors) k sta i = getR events k sta i := by
  have hnew : (rescaleResults events factors)[k]? =
      some (p.1, rescaleEventRes (factors k) p.2) := by
    simp [rescaleResults, rescaleGo_getElem, hp]
  constructor
  · cases h2 : p.2.W[i]? with
    | none => simp [getW, hnew, rescaleEventRes, scaleW_getElem, h2]
    | some w? =>
        rw [h2] at hw
        simp at hw
        simp [getW, hnew, rescaleEventRes, scaleW_getElem, h2, hw]
  · intro sta
    cases hv : p.2.R.lookup sta with
    | none => simp [getR, hnew, hp, rescaleEventRes, lookup_map_snd, hv]
    | some vals =>
        simp [getR, hnew, hp, rescaleEventRes, lookup_map_snd, hv, scaleRsta_getElem, hw]

/-- Witness for the amended C2 at the concrete input of the counterexample. -/
theorem rescale_amplification_requires_valid_energy_witness :
    cEventsC2[0]? = some (0, ⟨[none], [(7, [some 2])]⟩) ∧
    getW (rescaleResults cEventsC2 cFactorsC2) 0 0 = none ∧
    ∀ sta, getR (rescaleResults cEventsC2 cFactorsC2) 0 sta 0 = getR cEventsC2 0 sta 0 :=
  ⟨by decide,
   (rescale_amplification_requires_valid_energy cEventsC2 cFactorsC2 0 0
      (0, ⟨[none], [(7, [some 2])]⟩) (by decide) (by decide)).1,
   (rescale_amplification_requires_valid_energy cEventsC2 cFactorsC2 0 0
      (0, ⟨[none], [(7, [some 2])]⟩) (by decide) (by decide)).2⟩

/-- C9: `_merge_sets` applied to the sets {A,B}, {B,C}, {D,E}
(A..E rendered as 0..4) returns exactly the two sets {A,B,C} and {D,E}. -/
theorem mergeSets_concrete_example :
    mergeSets [({0, 1} : Finset ℕ), {1, 2}, {3, 4}] = [{0, 1, 2}, {3, 4}] := by
  decide

/-! ### `_join_unconnected_areas`, hull-reduction phase (site.py 111-123)

The bridging feature is disabled inside `align_site_responses`
(`join_unconnected = None`), but `_join_unconnected_areas` itself is the
Area Bridger.  Its first phase computes, for every area,
`scipy.spatial.ConvexHull` of the stations' coordinates — with no
exception handling around the call. -/

instance exceptDecEq {ε β : Type*} [DecidableEq ε] [DecidableEq β] :
    DecidableEq (Except ε β)
  | .error e, .error f =>
      if h : e = f then .isTrue (congrArg Except.error h)
      else .isFalse (fun hh => h (Except.error.inj hh))
  | .error _, .ok _ => .isFalse (fun hh => Except.noConfusion hh)
  | .ok _, .error _ => .isFalse (fun hh => Except.noConfusion hh)
  | .ok a, .ok b =>
      if h : a = b then .isTrue (congrArg Except.ok h)
      else .isFalse (fun hh => h (Except.ok.inj hh))

/-- Modelled from scipy's interface: `scipy.spatial.ConvexHull` raises
`QhullError` when given fewer than 3 distinct 2-D points (at least
ndim + 1 = 3 points are required to build a 2-D hull).  Which vertex
subset the non-degenerate branch returns is irrelevant to the claims
(hull sets only bound the candidate pairs of the distance computation),
so there the model keeps all distinct points. -/
def convexHullVertices (pts : Finset (ℚ × ℚ)) : Except Unit (Finset (ℚ × ℚ)) :=
  if pts.card < 3 then .error () else .ok pts

/-- The hull-reduction loop (site.py lines 118-123): for every area, the
convex hull of its stations' coordinates is computed and the area's hull
set keeps the stations whose coordinate is a returned hull vertex.  An
exception raised by `ConvexHull` propagates out of
`_join_unconnected_areas` uncaught, which the `Except` models. -/
def collectHulls (coords : ℕ → ℚ × ℚ) : List (Finset ℕ) → Except Unit (List (Finset ℕ))
  | [] => .ok []
  | a :: rest =>
      match convexHullVertices (a.image coords) with
      | .error e => .error e
      | .ok pts =>
          match collectHulls coords rest with
          | .error e => .error e
          | .ok hs => .ok (a.filter (fun s => coords s ∈ pts) :: hs)

/-- Coordinates used by the C6 counterexample: station 0 at (0,0),
every other station at (1,0). -/
def cCoordsC6 : ℕ → ℚ × ℚ := fun n => if n = 0 then (0, 0) else (1, 0)

/-- C6 counterexample: an area of two stations (two distinct coordinate
points) makes the hull phase raise — the full station set is NOT used as
a fallback hull set, contradicting the claim that hull reduction does not
raise an error on degenerate geometry. -/
theorem collectHulls_cex_degenerate_area_raises :
    collectHulls cCoordsC6 [({0, 1} : Finset ℕ)] = .error () ∧
    collectHulls cCoordsC6 [({0, 1} : Finset ℕ)] ≠ .ok [({0, 1} : Finset ℕ)] := by
  refine ⟨by decide, by decide⟩

/-- C6 amended: whenever some area given to the Area Bridger has fewer
than 3 distinct coordinate points, the hull-reduction phase raises
(scipy's `QhullError` propagates uncaught); there is no fallback that
uses the full station set as the hull set. -/
theorem collectHulls_error_on_degenerate (coords : ℕ → ℚ × ℚ)
    (areas : List (Finset ℕ))
    (h : ∃ a ∈ areas, (a.image coords).card < 3) :
    collectHulls coords areas = .error () := by
  induction areas with
  | nil => simp at h
  | cons a rest ih =>
      rcases h with ⟨b, hb, hlen⟩
      rcases List.mem_cons.mp hb with hba | hbr
      · subst hba
        simp [collectHulls, convexHullVertices, hlen]
      · cases hc : convexHullVertices (a.image coords) with
        | error e => simp [collectHulls, hc]
        | ok pts =>
            have hrest := ih ⟨b, hbr, hlen⟩
            simp [collectHulls, hc, hrest]

/-- Witness for the amended C6 at the concrete degenerate input. -/
theorem collectHulls_error_on_degenerate_witness :
    (∃ a ∈ [({0, 1} : Finset ℕ)], (a.image cCoordsC6).card < 3) ∧
    collectHulls cCoordsC6 [({0, 1} : Finset ℕ)] = .error () :=
  ⟨by decide, collectHulls_error_on_degenerate cCoordsC6 [{0, 1}] (by decide)⟩

/-! ### The least-squares system (System Builder; site.py lines 195-298)

`construct_ols` collects rows given by a column/coefficient list
(`coldata`) and a right-hand-side value.  The sparse and the dense
representation (lines 204-217) encode the same linear map row by row:
the column indices within one row are distinct by construction, so the
dense assignment `Arow[col] = data` and the sparse coordinate entries both
describe the row functional `x ↦ Σ data * x[col]`.

The system lives in log space: the source applies `np.log` to the stored
amplifications and every `b_val` is a difference of logs.  The model's
per-band input therefore holds the log-amplitudes directly (`np.log` is a
bijection from valid positive values, preserving validity pointwise), the
unknowns `x k` are the per-event log-factors (`factors[:, i] =
np.exp(res[0])`), and `ρ` stands for `np.log(response)`. -/

abbrev SystemRow : Type := List (ℕ × ℚ) × ℚ

/-- The row functional `x ↦ Σ coeff * x[col]` described by `coldata`. -/
def rowApply (cd : List (ℕ × ℚ)) (x : ℕ → ℚ) : ℚ :=
  (cd.map (fun p => p.2 * x p.1)).sum

def rowResidual (r : SystemRow) (x : ℕ → ℚ) : ℚ := rowApply r.1 x - r.2

/-- Squared residual norm of the stacked system at `x`. -/
def sqResidual (rows : List SystemRow) (x : ℕ → ℚ) : ℚ :=
  (rows.map (fun r => (rowResidual r x) ^ 2)).sum

/-- `x` is a least-squares solution of the assembled system — the
documented contract of `scipy.sparse.linalg.lsmr` and
`scipy.linalg.lstsq`, which both return a residual-norm minimiser (also
for singular systems). -/
def IsLSQSolution (rows : List SystemRow) (x : ℕ → ℚ) : Prop :=
  ∀ y : ℕ → ℚ, sqResidual rows x ≤ sqResidual rows y

theorem rowApply_add (cd : List (ℕ × ℚ)) (x d : ℕ → ℚ) :
    rowApply cd (fun c => x c + d c) = rowApply cd x + rowApply cd d := by
  induction cd with
  | nil => simp [rowApply]
  | cons p rest ih =>
      simp only [rowApply, List.map_cons, List.sum_cons] at ih ⊢
      rw [ih]; ring

theorem sqResidual_expand (rows : List SystemRow) (x d : ℕ → ℚ) :
    sqResidual rows (fun c => x c + d c) =
      sqResidual rows x
        + 2 * (rows.map (fun r => rowResidual r x * rowApply r.1 d)).sum
        + (rows.map (fun r => (rowApply r.1 d) ^ 2)).sum := by
  induction rows with
  | nil => simp [sqResidual]
  | cons r rest ih =>
      simp only [sqResidual, List.map_cons, List.sum_cons] at ih ⊢
      rw [ih]
      have hres : rowResidual r (fun c => x c + d c) = rowResidual r x + rowApply r.1 d := by
        simp only [rowResidual, rowApply_add]; ring
      rw [hres]; ring

theorem sum_sq_nonneg (rows : List SystemRow) (g : SystemRow → ℚ) :
    0 ≤ (rows.map (fun r => (g r) ^ 2)).sum := by
  induction rows with
  | nil => simp
  | cons r rest ih =>
      simp only [List.map_cons, List.sum_cons]
      have := sq_nonneg (g r)
      linarith

/-- If the residual vector at `x` is orthogonal to the column space
(the normal equations), `x` is a least-squares solution. -/
theorem isLSQ_of_perp (rows : List SystemRow) (x : ℕ → ℚ)
    (h : ∀ d : ℕ → ℚ, (rows.map (fun r => rowResidual r x * rowApply r.1 d)).sum = 0) :
    IsLSQSolution rows x := by
  intro y
  have hexp := sqResidual_expand rows x (fun c => y c - x c)
  rw [h (fun c => y c - x c)] at hexp
  have hyx : (fun c => x c + (y c - x c)) = y := by funext c; ring
  rw [hyx] at hexp
  have hnn := sum_sq_nonneg rows (fun r => rowApply r.1 (fun c => y c - x c))
  linarith

/-- Sum of one row's coefficients; equals the row functional at the
all-ones direction. -/
def sumSnd (cd : List (ℕ × ℚ)) : ℚ := (cd.map Prod.snd).sum

theorem rowApply_const (cd : List (ℕ × ℚ)) (t : ℚ) :
    rowApply cd (fun _ => t) = t * sumSnd cd := by
  induction cd with
  | nil => simp [rowApply, sumSnd]
  | cons p rest ih =>
      simp only [rowApply, sumSnd, List.map_cons, List.sum_cons] at ih ⊢
      rw [ih]; ring

/-! ### System Builder state (the nonlocal lists of `construct_ols` and
the accumulators of the per-band loop, site.py lines 233-283) -/

structure BuildState where
  rows : List SystemRow
  normA : List (ℕ × ℚ)
  normB : ℚ
  last : List (ℕ × ℕ × ℚ)
deriving DecidableEq

/-- `norm_row_A[k] += fac` on the `defaultdict(float)`: update the entry
in place, or append a fresh key in insertion order. -/
def bumpNorm : List (ℕ × ℚ) → ℕ → ℚ → List (ℕ × ℚ)
  | [], k, v => [(k, v)]
  | p :: rest, k, v => if p.1 = k then (k, p.2 + v) :: rest else p :: bumpNorm rest k v

/-- `last[sta] = (k, value)` on the dict. -/
def setLast : List (ℕ × ℕ × ℚ) → ℕ → ℕ × ℚ → List (ℕ × ℕ × ℚ)
  | [], sta, e => [(sta, e)]
  | p :: rest, sta, e => if p.1 = sta then (sta, e) :: rest else p :: setLast rest sta e

/-- The body of the station loop for one valid in-area observation
(site.py lines 252-279), with `ℓ` the log-amplitude `np.log(Rsta)`:
accumulate the normalization row when no station is pinned, then emit a
pin row (`sta == station`), or a pair row when the station was seen in an
earlier event (`sta in last`), or record the first sighting.  The
`join_unconnected` branch (lines 269-277) is dead code — the flag is the
constant `None` — and the assignment to the write-only dict `first` is
dropped. -/
def obsStep (pinned : Option ℕ) (ρ : ℚ) (fac : ℕ → ℚ) (k : ℕ)
    (st : BuildState) (sta : ℕ) (ℓ : ℚ) : BuildState :=
  let st1 := if pinned = none then
      { st with normA := bumpNorm st.normA k (fac sta),
                normB := st.normB - fac sta * ℓ }
    else st
  if pinned = some sta then
    { st1 with rows := st1.rows ++ [([(k, 1)], ρ - ℓ)] }
  else
    match st1.last.lookup sta with
    | some (kl, ℓl) =>
        { st1 with rows := st1.rows ++ [([(k, 1), (kl, -1)], ℓl - ℓ)],
                   last := setLast st1.last sta (k, ℓ) }
    | none => { st1 with last := setLast st1.last sta (k, ℓ) }

/-- The station loop of one event (`for sta, Rsta in eres['R'].items()`),
skipping invalid values and stations outside the chosen area. -/
def eventSteps (pinned : Option ℕ) (ρ : ℚ) (fac : ℕ → ℚ) (area : Finset ℕ)
    (i k : ℕ) (st : BuildState) (R : List (ℕ × List (Option ℚ))) : BuildState :=
  R.foldl (fun st p =>
    match (p.2[i]?).getD none with
    | none => st
    | some ℓ => if p.1 ∈ area then obsStep pinned ρ fac k st p.1 ℓ else st) st

/-- The event loop (`for k, item in enumerate(results['events'].items())`). -/
def buildGo (pinned : Option ℕ) (ρ : ℚ) (fac : ℕ → ℚ) (area : Finset ℕ)
    (i : ℕ) : ℕ → BuildState → List (ℕ × EventRes) → BuildState
  | _, st, [] => st
  | k, st, e :: rest =>
      buildGo pinned ρ fac area i (k + 1) (eventSteps pinned ρ fac area i k st e.2.R) rest

/-- Validity of station `sta`'s observation in one event at band `i`. -/
def validAt (eres : EventRes) (sta i : ℕ) : Bool :=
  ((eres.R.lookup sta).bind (fun vals => (vals[i]?).getD none)).isSome

/-- `Nstations[i][sta]` (site.py lines 195-202): the number of events in
which `sta` has a valid observation at band `i` — over the whole result
set, with no restriction to any area. -/
def nStations (events : List (ℕ × EventRes)) (i sta : ℕ) : ℕ :=
  (events.filter (fun p => validAt p.2 sta i)).length

/-- The keys of `Nstations[i]`: every station with at least one valid
observation at band `i` in any event. -/
def allValidStations (events : List (ℕ × EventRes)) (i : ℕ) : Finset ℕ :=
  events.foldr (fun p acc => validSet p.2 i ∪ acc) ∅

/-- `len(Nstations[i])`. -/
def numValidStations (events : List (ℕ × EventRes)) (i : ℕ) : ℕ :=
  (allValidStations events i).card

/-- `fac = 1. / Nstations[i][sta] / len(Nstations[i])` (site.py line 255). -/
def stationWeight (events : List (ℕ × EventRes)) (i sta : ℕ) : ℚ :=
  1 / (nStations events i sta : ℚ) / (numValidStations events i : ℚ)

/-- `max(areas, key=lambda k: len(areas[k]))`: the first set of maximal
size, in the dict's insertion order (Python's `max` keeps the first
maximum).  On an empty dict Python raises `ValueError`; that situation is
excluded wherever `largestArea` is used under the hypothesis that some
valid observation exists at the band. -/
def largestArea (l : List (Finset ℕ)) : Finset ℕ :=
  l.foldl (fun best a => if best.card < a.card then a else best) ∅

/-- The accumulated builder state after the event loop of band `i`. -/
def buildState (events : List (ℕ × EventRes)) (i : ℕ) (pinned : Option ℕ)
    (ρ : ℚ) : BuildState :=
  buildGo pinned ρ (stationWeight events i) (largestArea (findUnconnectedAreas events i))
    i 0 ⟨[], [], 0, []⟩ events

/-- The assembled per-band system (site.py lines 280-283): the collected
rows, followed by the normalization row `(norm_row_A, norm_row_b +
log(response))` when no station is pinned. -/
def buildSystem (events : List (ℕ × EventRes)) (i : ℕ) (pinned : Option ℕ)
    (ρ : ℚ) : List SystemRow :=
  let st := buildState events i pinned ρ
  st.rows ++ (if pinned = none then [(st.normA, st.normB + ρ)] else [])

/-- `if Ne == 1: use_sparse = False` (site.py lines 189-191), applied to
the events that remain after dropping `None` records. -/
def effectiveUseSparse (evs : List (ℕ × EventRes)) (useSparse : Bool) : Bool :=
  if evs.length = 1 then false else useSparse

/-! ### The builder loop as a fold over the valid in-area observations

The nested event/station loops touch the state only at the valid in-area
observations, in iteration order; `obsGo` lists those observations as
`(event index, station, log-amplitude)` triples. -/

/-- The valid in-area observations contributed by one event. -/
def eventObs (i k : ℕ) (area : Finset ℕ) (R : List (ℕ × List (Option ℚ))) :
    List (ℕ × ℕ × ℚ) :=
  R.filterMap (fun p =>
    ((p.2[i]?).getD none).bind (fun ℓ =>
      if p.1 ∈ area then some (k, p.1, ℓ) else none))

/-- All valid in-area observations, in the iteration order of the event
loop started at index `k`. -/
def obsGo (i : ℕ) (area : Finset ℕ) : ℕ → List (ℕ × EventRes) → List (ℕ × ℕ × ℚ)
  | _, [] => []
  | k, e :: rest => eventObs i k area e.2.R ++ obsGo i area (k + 1) rest

/-- The fold step corresponding to one observation. -/
def obsFoldStep (pinned : Option ℕ) (ρ : ℚ) (fac : ℕ → ℚ)
    (st : BuildState) (o : ℕ × ℕ × ℚ) : BuildState :=
  obsStep pinned ρ fac o.1 st o.2.1 o.2.2

theorem eventSteps_eq_obsFold (pinned : Option ℕ) (ρ : ℚ) (fac : ℕ → ℚ)
    (area : Finset ℕ) (i k : ℕ) (R : List (ℕ × List (Option ℚ))) :
    ∀ st, eventSteps pinned ρ fac area i k st R =
      (eventObs i k area R).foldl (obsFoldStep pinned ρ fac) st := by
  induction R with
  | nil => intro st; simp [eventSteps, eventObs]
  | cons p rest ih =>
      intro st
      cases hv : (p.2[i]?).getD none with
      | none => simpa [eventSteps, eventObs, hv] using ih st
      | some ℓ =>
          by_cases ha : p.1 ∈ area
          · simpa [eventSteps, eventObs, hv, ha, obsFoldStep] using
              ih (obsStep pinned ρ fac k st p.1 ℓ)
          · simpa [eventSteps, eventObs, hv, ha] using ih st

theorem buildGo_eq_obsFold (pinned : Option ℕ) (ρ : ℚ) (fac : ℕ → ℚ)
    (area : Finset ℕ) (i : ℕ) (events : List (ℕ × EventRes)) :
    ∀ k st, buildGo pinned ρ fac area i k st events =
      (obsGo i area k events).foldl (obsFoldStep pinned ρ fac) st := by
  induction events with
  | nil => intro k st; simp [buildGo, obsGo]
  | cons e rest ih =>
      intro k st
      simp only [buildGo, obsGo, List.foldl_append]
      rw [eventSteps_eq_obsFold, ih]

theorem buildState_eq_obsFold (events : List (ℕ × EventRes)) (i : ℕ)
    (pinned : Option ℕ) (ρ : ℚ) :
    buildState events i pinned ρ =
      (obsGo i (largestArea (findUnconnectedAreas events i)) 0 events).foldl
        (obsFoldStep pinned ρ (stationWeight events i)) ⟨[], [], 0, []⟩ := by
  unfold buildState
  rw [buildGo_eq_obsFold]

/-! Component behaviour of one observation step when no station is pinned. -/

theorem obsStep_none_normA (ρ : ℚ) (fac : ℕ → ℚ) (k : ℕ) (st : BuildState)
    (sta : ℕ) (ℓ : ℚ) :
    (obsStep none ρ fac k st sta ℓ).normA = bumpNorm st.normA k (fac sta) := by
  unfold obsStep
  cases h : st.last.lookup sta <;> simp [h]

theorem obsStep_none_normB (ρ : ℚ) (fac : ℕ → ℚ) (k : ℕ) (st : BuildState)
    (sta : ℕ) (ℓ : ℚ) :
    (obsStep none ρ fac k st sta ℓ).normB = st.normB - fac sta * ℓ := by
  unfold obsStep
  cases h : st.last.lookup sta <;> simp [h]

theorem obsStep_none_rows (ρ : ℚ) (fac : ℕ → ℚ) (k : ℕ) (st : BuildState)
    (sta : ℕ) (ℓ : ℚ) :
    (obsStep none ρ fac k st sta ℓ).rows = st.rows ∨
      ∃ kl ℓl, (obsStep none ρ fac k st sta ℓ).rows =
        st.rows ++ [([(k, 1), (kl, -1)], ℓl - ℓ)] := by
  unfold obsStep
  cases h : st.last.lookup sta with
  | none => left; simp [h]
  | some v => cases v with
    | mk kl ℓl => right; exact ⟨kl, ℓl, by simp [h]⟩

theorem bumpNorm_rowApply (x : ℕ → ℚ) :
    ∀ (A : List (ℕ × ℚ)) (k : ℕ) (v : ℚ),
      rowApply (bumpNorm A k v) x = rowApply A x + v * x k := by
  intro A
  induction A with
  | nil => intro k v; simp [bumpNorm, rowApply]
  | cons p rest ih =>
      intro k v
      by_cases h : p.1 = k
      · simp only [bumpNorm, if_pos h, rowApply, List.map_cons, List.sum_cons]
        rw [h]; ring
      · simp only [bumpNorm, if_neg h, rowApply, List.map_cons, List.sum_cons]
        have := ih k v
        simp only [rowApply] at this
        rw [this]; ring

theorem bumpNorm_sumSnd :
    ∀ (A : List (ℕ × ℚ)) (k : ℕ) (v : ℚ), sumSnd (bumpNorm A k v) = sumSnd A + v := by
  intro A
  induction A with
  | nil => intro k v; simp [bumpNorm, sumSnd]
  | cons p rest ih =>
      intro k v
      by_cases h : p.1 = k
      · simp only [bumpNorm, if_pos h, sumSnd, List.map_cons, List.sum_cons]
        ring
      · simp only [bumpNorm, if_neg h, sumSnd, List.map_cons, List.sum_cons]
        have := ih k v
        simp only [sumSnd] at this
        rw [this]; ring

/-! Accumulation of the normalization row over the observation fold. -/

theorem foldNone_normA_apply (ρ : ℚ) (fac : ℕ → ℚ) (x : ℕ → ℚ)
    (L : List (ℕ × ℕ × ℚ)) :
    ∀ st, rowApply ((L.foldl (obsFoldStep none ρ fac) st).normA) x =
      rowApply st.normA x + (L.map (fun o => fac o.2.1 * x o.1)).sum := by
  induction L with
  | nil => intro st; simp
  | cons o rest ih =>
      intro st
      simp only [List.foldl_cons, List.map_cons, List.sum_cons]
      rw [ih]
      simp only [obsFoldStep, obsStep_none_normA, bumpNorm_rowApply]
      ring

theorem foldNone_sumSnd (ρ : ℚ) (fac : ℕ → ℚ) (L : List (ℕ × ℕ × ℚ)) :
    ∀ st, sumSnd ((L.foldl (obsFoldStep none ρ fac) st).normA) =
      sumSnd st.normA + (L.map (fun o => fac o.2.1)).sum := by
  induction L with
  | nil => intro st; simp
  | cons o rest ih =>
      intro st
      simp only [List.foldl_cons, List.map_cons, List.sum_cons]
      rw [ih]
      simp only [obsFoldStep, obsStep_none_normA, bumpNorm_sumSnd]
      ring

theorem foldNone_normB (ρ : ℚ) (fac : ℕ → ℚ) (L : List (ℕ × ℕ × ℚ)) :
    ∀ st, (L.foldl (obsFoldStep none ρ fac) st).normB =
      st.normB - (L.map (fun o => fac o.2.1 * o.2.2)).sum := by
  induction L with
  | nil => intro st; simp
  | cons o rest ih =>
      intro st
      simp only [List.foldl_cons, List.map_cons, List.sum_cons]
      rw [ih]
      simp only [obsFoldStep, obsStep_none_normB]
      ring

/-! Station bookkeeping: the stations occurring in the observation list,
their multiplicities, and the total normalization weight. -/

theorem eventObs_mem_decomp (i k : ℕ) (area : Finset ℕ)
    (R : List (ℕ × List (Option ℚ))) {o : ℕ × ℕ × ℚ}
    (ho : o ∈ eventObs i k area R) :
    o.1 = k ∧ o.2.1 ∈ R.map Prod.fst ∧ o.2.1 ∈ area := by
  unfold eventObs at ho
  rcases List.mem_filterMap.mp ho with ⟨p, hp, he⟩
  rcases Option.bind_eq_some.mp he with ⟨ℓ, _, hif⟩
  by_cases ha : p.1 ∈ area
  · rw [if_pos ha] at hif
    cases hif
    exact ⟨rfl, List.mem_map_of_mem Prod.fst hp, ha⟩
  · rw [if_neg ha] at hif; cases hif

/-- Head equations of `eventObs`. -/
theorem eventObs_cons_none {i k : ℕ} {area : Finset ℕ} {p : ℕ × List (Option ℚ)}
    {rest : List (ℕ × List (Option ℚ))} (hv : (p.2[i]?).getD none = none) :
    eventObs i k area (p :: rest) = eventObs i k area rest := by
  unfold eventObs
  simp [List.filterMap_cons, hv]

theorem eventObs_cons_some {i k : ℕ} {area : Finset ℕ} {p : ℕ × List (Option ℚ)}
    {rest : List (ℕ × List (Option ℚ))} {ℓ : ℚ}
    (hv : (p.2[i]?).getD none = some ℓ) :
    eventObs i k area (p :: rest) =
      if p.1 ∈ area then (k, p.1, ℓ) :: eventObs i k area rest
      else eventObs i k area rest := by
  unfold eventObs
  by_cases ha : p.1 ∈ area
  · simp [List.filterMap_cons, hv, ha]
  · simp [List.filterMap_cons, hv, ha]

theorem eventObs_stations_sublist (i k : ℕ) (area : Finset ℕ) :
    ∀ R : List (ℕ × List (Option ℚ)),
      ((eventObs i k area R).map (fun o => o.2.1)).Sublist (R.map Prod.fst) := by
  intro R
  induction R with
  | nil => simp [eventObs]
  | cons p rest ih =>
      cases hv : (p.2[i]?).getD none with
      | none =>
          rw [eventObs_cons_none hv]
          exact ih.cons p.1
      | some ℓ =>
          rw [eventObs_cons_some hv]
          by_cases ha : p.1 ∈ area
          · rw [if_pos ha]
            exact ih.cons₂ p.1
          · rw [if_neg ha]
            exact ih.cons p.1

theorem mem_validSet_aux (i sta : ℕ) :
    ∀ R : List (ℕ × List (Option ℚ)), (R.map Prod.fst).Nodup →
      (sta ∈ ((R.filter (fun p => ((p.2[i]?).getD none).isSome)).map Prod.fst).toFinset ↔
        ((R.lookup sta).bind (fun vals => (vals[i]?).getD none)).isSome = true) := by
  intro R
  induction R with
  | nil => intro _; simp
  | cons p rest ih =>
      intro hnd
      rw [List.map_cons, List.nodup_cons] at hnd
      obtain ⟨hkey, hnd'⟩ := hnd
      by_cases hk : sta = p.1
      · have hbeq : (sta == p.1) = true := beq_iff_eq.mpr hk
        have hnotin : sta ∉ ((rest.filter
            (fun p => ((p.2[i]?).getD none).isSome)).map Prod.fst) := by
          intro hmem
          rw [hk] at hmem
          exact hkey (((List.filter_sublist rest).map Prod.fst).subset hmem)
        cases hval : ((p.2[i]?).getD none).isSome with
        | false =>
            rw [List.filter_cons, if_neg (by simp [hval])]
            rw [List.lookup, hbeq]
            constructor
            · intro hmem; exact absurd (List.mem_toFinset.mp hmem) hnotin
            · intro hsome
              exact absurd hsome (by simp [hval])
        | true =>
            rw [List.filter_cons, if_pos (by simp [hval])]
            rw [List.lookup, hbeq]
            constructor
            · intro _; exact hval
            · intro _
              rw [List.map_cons, List.toFinset_cons, Finset.mem_insert]
              exact Or.inl hk
      · have hbeq : (sta == p.1) = false := beq_eq_false_iff_ne.mpr hk
        rw [List.filter_cons]
        by_cases hval : ((p.2[i]?).getD none).isSome = true
        · rw [if_pos (by simp [hval])]
          simp only [List.map_cons, List.toFinset_cons, Finset.mem_insert]
          rw [List.lookup, hbeq]
          constructor
          · intro h
            rcases h with h | h
            · exact absurd h hk
            · exact (ih hnd').mp h
          · intro h; exact Or.inr ((ih hnd').mpr h)
        · rw [if_neg (by simpa using hval)]
          rw [List.lookup, hbeq]
          exact ih hnd'

theorem mem_validSet (eres : EventRes) (i sta : ℕ)
    (hnd : (eres.R.map Prod.fst).Nodup) :
    sta ∈ validSet eres i ↔ validAt eres sta i = true :=
  mem_validSet_aux i sta eres.R hnd

theorem count_eventObs (i k sta : ℕ) (area : Finset ℕ) :
    ∀ R : List (ℕ × List (Option ℚ)), (R.map Prod.fst).Nodup →
      ((eventObs i k area R).map (fun o => o.2.1)).count sta =
        if (((R.lookup sta).bind (fun vals => (vals[i]?).getD none)).isSome ∧ sta ∈ area)
        then 1 else 0 := by
  intro R
  induction R with
  | nil => intro _; simp [eventObs]
  | cons p rest ih =>
      intro hnd
      rw [List.map_cons, List.nodup_cons] at hnd
      obtain ⟨hkey, hnd'⟩ := hnd
      by_cases hk : sta = p.1
      · have hbeq : (sta == p.1) = true := beq_iff_eq.mpr hk
        have hc0 : ((eventObs i k area rest).map (fun o => o.2.1)).count sta = 0 := by
          rw [List.count_eq_zero]
          intro hmem
          rw [hk] at hmem
          exact hkey ((eventObs_stations_sublist i k area rest).subset hmem)
        simp only [List.lookup, hbeq, Option.some_bind]
        cases hv : (p.2[i]?).getD none with
        | none =>
            rw [eventObs_cons_none hv, hc0]
            simp
        | some ℓ =>
            rw [eventObs_cons_some hv]
            by_cases ha : p.1 ∈ area
            · rw [if_pos ha, List.map_cons]
              rw [hk, List.count_cons_self]
              rw [hk] at hc0
              rw [hc0]
              simp [ha]
            · rw [if_neg ha, hc0]
              simp [hk, ha]
      · have hbeq : (sta == p.1) = false := beq_eq_false_iff_ne.mpr hk
        have htail := ih hnd'
        rw [List.lookup, hbeq]
        cases hv : (p.2[i]?).getD none with
        | none =>
            rw [eventObs_cons_none hv]
            exact htail
        | some ℓ =>
            rw [eventObs_cons_some hv]
            by_cases ha : p.1 ∈ area
            · rw [if_pos ha, List.map_cons, List.count_cons_of_ne hk]
              exact htail
            · rw [if_neg ha]
              exact htail

theorem count_obsGo (i sta : ℕ) (area : Finset ℕ) :
    ∀ (events : List (ℕ × EventRes)), (∀ p ∈ events, (p.2.R.map Prod.fst).Nodup) →
      ∀ k, ((obsGo i area k events).map (fun o => o.2.1)).count sta =
        if sta ∈ area then nStations events i sta else 0 := by
  intro events
  induction events with
  | nil => intro _ k; simp [obsGo, nStations]
  | cons e rest ih =>
      intro hnd k
      have hnd' : ∀ p ∈ rest, (p.2.R.map Prod.fst).Nodup :=
        fun p hp => hnd p (List.mem_cons_of_mem e hp)
      have hhead := count_eventObs i k sta area e.2.R (hnd e (List.mem_cons_self e rest))
      simp only [obsGo, List.map_append, List.count_append]
      rw [hhead, ih hnd' (k + 1)]
      have hns : nStations (e :: rest) i sta =
          (if validAt e.2 sta i then 1 else 0) + nStations rest i sta := by
        unfold nStations
        rw [List.filter_cons]
        by_cases hv : validAt e.2 sta i
        · rw [if_pos (by simp [hv]), if_pos hv, List.length_cons]; omega
        · rw [if_neg (by simpa using hv), if_neg hv]; omega
      rw [hns]
      unfold validAt
      by_cases ha : sta ∈ area <;>
        by_cases hv : ((e.2.R.lookup sta).bind
          (fun vals => (vals[i]?).getD none)).isSome = true <;>
        simp [ha, hv]

theorem mem_allValidStations (i sta : ℕ) :
    ∀ events : List (ℕ × EventRes),
      (sta ∈ allValidStations events i ↔ ∃ p ∈ events, sta ∈ validSet p.2 i) := by
  intro events
  induction events with
  | nil => simp [allValidStations]
  | cons e rest ih =>
      simp only [allValidStations, List.foldr_cons, Finset.mem_union]
      rw [show (rest.foldr (fun p acc => validSet p.2 i ∪ acc) ∅) =
        allValidStations rest i from rfl]
      rw [ih]
      simp

theorem nStations_pos (events : List (ℕ × EventRes)) (i sta : ℕ)
    (h : ∃ p ∈ events, validAt p.2 sta i = true) : 0 < nStations events i sta := by
  rcases h with ⟨p, hp, hv⟩
  exact List.length_pos_of_mem (List.mem_filter.mpr ⟨hp, hv⟩)

/-- The total weight of the normalization row contributions: when every
valid observation lies inside the chosen area, the
`1/Nstations[i][sta]/len(Nstations[i])` weights over all observations sum
to exactly 1. -/
theorem obsWeightSum_eq_one (events : List (ℕ × EventRes)) (i : ℕ) (area : Finset ℕ)
    (hnd : ∀ p ∈ events, (p.2.R.map Prod.fst).Nodup)
    (hall : ∀ sta ∈ allValidStations events i, sta ∈ area)
    (hex : (allValidStations events i).Nonempty) :
    ((obsGo i area 0 events).map (fun o => stationWeight events i o.2.1)).sum = 1 := by
  classical
  have hvalid_iff : ∀ sta, sta ∈ allValidStations events i ↔
      ∃ p ∈ events, validAt p.2 sta i = true := by
    intro sta
    rw [mem_allValidStations]
    constructor
    · rintro ⟨p, hp, hv⟩
      exact ⟨p, hp, (mem_validSet p.2 i sta (hnd p hp)).mp hv⟩
    · rintro ⟨p, hp, hv⟩
      exact ⟨p, hp, (mem_validSet p.2 i sta (hnd p hp)).mpr hv⟩
  have hmapmap : (obsGo i area 0 events).map (fun o => stationWeight events i o.2.1) =
      ((obsGo i area 0 events).map (fun o => o.2.1)).map (stationWeight events i) := by
    rw [List.map_map]; rfl
  rw [hmapmap, Finset.sum_list_map_count]
  have htf : ((obsGo i area 0 events).map (fun o => o.2.1)).toFinset =
      allValidStations events i := by
    ext sta
    rw [List.mem_toFinset, ← List.count_pos_iff, count_obsGo i sta area events hnd 0]
    constructor
    · intro hpos
      by_cases ha : sta ∈ area
      · rw [if_pos ha] at hpos
        rcases List.length_pos_iff_exists_mem.mp hpos with ⟨p, hp⟩
        rcases List.mem_filter.mp hp with ⟨hpe, hpv⟩
        exact (hvalid_iff sta).mpr ⟨p, hpe, hpv⟩
      · rw [if_neg ha] at hpos; omega
    · intro hmem
      rw [if_pos (hall sta hmem)]
      exact nStations_pos events i sta ((hvalid_iff sta).mp hmem)
  rw [htf]
  have hnsne : ((numValidStations events i : ℚ)) ≠ 0 := by
    have : 0 < numValidStations events i := Finset.card_pos.mpr hex
    exact_mod_cast this.ne'
  have hterm : ∀ sta ∈ allValidStations events i,
      (((obsGo i area 0 events).map (fun o => o.2.1)).count sta) •
        stationWeight events i sta = (numValidStations events i : ℚ)⁻¹ := by
    intro sta hsta
    rw [count_obsGo i sta area events hnd 0, if_pos (hall sta hsta)]
    have hpos : 0 < nStations events i sta :=
      nStations_pos events i sta ((hvalid_iff sta).mp hsta)
    have hne : ((nStations events i sta : ℚ)) ≠ 0 := by exact_mod_cast hpos.ne'
    unfold stationWeight
    rw [nsmul_eq_mul]
    field_simp
  rw [Finset.sum_congr rfl hterm, Finset.sum_const, nsmul_eq_mul]
  rw [show (allValidStations events i).card = numValidStations events i from rfl]
  field_simp

theorem foldNone_rows (ρ : ℚ) (fac : ℕ → ℚ) (L : List (ℕ × ℕ × ℚ)) :
    ∀ st r, r ∈ (L.foldl (obsFoldStep none ρ fac) st).rows →
      r ∈ st.rows ∨ ∃ a b c, r = ([((a : ℕ), (1 : ℚ)), (b, -1)], c) := by
  induction L with
  | nil => intro st r hr; exact Or.inl hr
  | cons o rest ih =>
      intro st r hr
      rcases ih _ r hr with hmem | hpair
      · rcases obsStep_none_rows ρ fac o.1 st o.2.1 o.2.2 with he | ⟨kl, ℓl, he⟩
        · rw [obsFoldStep] at hmem; rw [he] at hmem; exact Or.inl hmem
        · rw [obsFoldStep] at hmem; rw [he] at hmem
          rcases List.mem_append.mp hmem with h1 | h2
          · exact Or.inl h1
          · right
            rcases List.mem_singleton.mp h2 with rfl
            exact ⟨o.1, kl, ℓl - o.2.2, rfl⟩
      · exact Or.inr hpair

/-! ### Single-event behaviour (claim C5) -/

/-- For the normalization-row claims, the weighted log-mean of the
rescaled amplifications: every valid in-area observation contributes its
weight times (log-amplitude + log-factor of its event).  This is the log
reading of the weighted geometric mean of §4.3 of the specification. -/
def weightedLogSum (events : List (ℕ × EventRes)) (i : ℕ) (x : ℕ → ℚ) : ℚ :=
  ((obsGo i (largestArea (findUnconnectedAreas events i)) 0 events).map
    (fun o => stationWeight events i o.2.1 * (o.2.2 + x o.1))).sum

theorem mergeSets_singleton (v : Finset α) : mergeSets [v] = [v] := rfl

theorem largestArea_singleton (v : Finset ℕ) (hv : v.Nonempty) :
    largestArea [v] = v := by
  unfold largestArea
  simp [Finset.card_pos.mpr hv]

theorem singleEvent_findAreas (e : ℕ × EventRes) (i : ℕ)
    (hex : validSet e.2 i ≠ ∅) :
    findUnconnectedAreas [e] i = [validSet e.2 i] := by
  unfold findUnconnectedAreas
  rw [show ([e].map (fun p => validSet p.2 i)).filter (fun a => a ≠ ∅) =
    [validSet e.2 i] by simp [hex]]
  exact mergeSets_singleton _

theorem allValid_singleton (e : ℕ × EventRes) (i : ℕ) :
    allValidStations [e] i = validSet e.2 i := by
  simp [allValidStations]

theorem setLast_lookup (sta : ℕ) (e : ℕ × ℚ) :
    ∀ (l : List (ℕ × ℕ × ℚ)) (sta' : ℕ),
      (setLast l sta e).lookup sta' = if sta' = sta then some e else l.lookup sta' := by
  intro l
  induction l with
  | nil =>
      intro sta'
      by_cases h : sta' = sta
      · simp [setLast, List.lookup, h]
      · simp [setLast, List.lookup, h, beq_eq_false_iff_ne.mpr h]
  | cons p rest ih =>
      intro sta'
      by_cases hp : p.1 = sta
      · simp only [setLast, if_pos hp]
        by_cases h : sta' = sta
        · simp [List.lookup, h]
        · have hne : sta' ≠ p.1 := fun hEq => h (hEq.trans hp)
          simp [List.lookup, beq_eq_false_iff_ne.mpr h, h,
            beq_eq_false_iff_ne.mpr hne]
      · simp only [setLast, if_neg hp]
        by_cases h : sta' = p.1
        · have hne : sta' ≠ sta := fun hEq => hp ((h.symm.trans hEq) ▸ rfl)
          simp [List.lookup, beq_iff_eq.mpr h, hne]
        · simp [List.lookup, beq_eq_false_iff_ne.mpr h, ih sta']

theorem obsStep_none_rows_of_miss (ρ : ℚ) (fac : ℕ → ℚ) (k : ℕ) (st : BuildState)
    (sta : ℕ) (ℓ : ℚ) (h : st.last.lookup sta = none) :
    (obsStep none ρ fac k st sta ℓ).rows = st.rows ∧
    (obsStep none ρ fac k st sta ℓ).last = setLast st.last sta (k, ℓ) := by
  unfold obsStep
  simp [h]

/-- With pairwise distinct stations none of which was seen before, the
station loop emits no pair rows (each observation is a first sighting). -/
theorem foldNone_rows_eq (ρ : ℚ) (fac : ℕ → ℚ) :
    ∀ L : List (ℕ × ℕ × ℚ), (L.map (fun o => o.2.1)).Nodup →
      ∀ st : BuildState, (∀ o ∈ L, st.last.lookup o.2.1 = none) →
        (L.foldl (obsFoldStep none ρ fac) st).rows = st.rows := by
  intro L
  induction L with
  | nil => intro _ st _; rfl
  | cons o rest ih =>
      intro hnd st hmiss
      rw [List.map_cons, List.nodup_cons] at hnd
      obtain ⟨hhead, hnd'⟩ := hnd
      have hm := hmiss o (List.mem_cons_self o rest)
      obtain ⟨hrows, hlast⟩ := obsStep_none_rows_of_miss ρ fac o.1 st o.2.1 o.2.2 hm
      have hmiss' : ∀ o' ∈ rest,
          (obsStep none ρ fac o.1 st o.2.1 o.2.2).last.lookup o'.2.1 = none := by
        intro o' ho'
        rw [hlast, setLast_lookup]
        have hne : o'.2.1 ≠ o.2.1 := by
          intro hEq
          exact hhead (hEq ▸ List.mem_map_of_mem (fun o => o.2.1) ho')
        rw [if_neg hne]
        exact hmiss o' (List.mem_cons_of_mem o ho')
      calc (((o :: rest).foldl (obsFoldStep none ρ fac) st)).rows
          = ((rest.foldl (obsFoldStep none ρ fac) (obsStep none ρ fac o.1 st o.2.1 o.2.2))).rows := rfl
        _ = (obsStep none ρ fac o.1 st o.2.1 o.2.2).rows := ih hnd' _ hmiss'
        _ = st.rows := hrows

/-- C5 amended: with exactly one event the dense solver is forced
(`use_sparse = False`), and any least-squares solution of the assembled
system — which consists of the normalization row alone — satisfies
`x 0 = log(response) - weighted mean log amplification`; the factor
`exp (x 0)` equals 1.0 exactly when the weighted geometric mean of the
event's amplifications already equals the reference response, not in
general. -/
theorem singleEvent_dense_and_factor (e : ℕ × EventRes) (i : ℕ) (ρ : ℚ)
    (hnd : (e.2.R.map Prod.fst).Nodup)
    (hex : (validSet e.2 i).Nonempty)
    (x : ℕ → ℚ) (hx : IsLSQSolution (buildSystem [e] i none ρ) x) :
    (∀ b : Bool, effectiveUseSparse [e] b = false) ∧
    x 0 = ρ - weightedLogSum [e] i (fun _ => 0) ∧
    (x 0 = 0 ↔ weightedLogSum [e] i (fun _ => 0) = ρ) := by
  have harea : largestArea (findUnconnectedAreas [e] i) = validSet e.2 i := by
    rw [singleEvent_findAreas e i (by
      intro hc; rw [hc] at hex; exact Finset.not_nonempty_empty hex)]
    exact largestArea_singleton _ hex
  have hLe : obsGo i (largestArea (findUnconnectedAreas [e] i)) 0 [e] =
      eventObs i 0 (largestArea (findUnconnectedAreas [e] i)) e.2.R := by
    simp [obsGo]
  have hndL : ((obsGo i (largestArea (findUnconnectedAreas [e] i)) 0 [e]).map
      (fun o => o.2.1)).Nodup := by
    rw [hLe]
    exact (eventObs_stations_sublist i 0 _ e.2.R).nodup hnd
  have hfirst : ∀ o ∈ obsGo i (largestArea (findUnconnectedAreas [e] i)) 0 [e],
      o.1 = 0 := by
    intro o ho
    rw [hLe] at ho
    exact (eventObs_mem_decomp i 0 _ e.2.R ho).1
  have hndall : ∀ p ∈ [e], (p.2.R.map Prod.fst).Nodup := by
    intro p hp
    rw [List.mem_singleton] at hp
    rw [hp]; exact hnd
  have hall : ∀ sta ∈ allValidStations [e] i,
      sta ∈ largestArea (findUnconnectedAreas [e] i) := by
    intro sta hsta
    rw [allValid_singleton] at hsta
    rw [harea]
    exact hsta
  have hexall : (allValidStations [e] i).Nonempty := by
    rw [allValid_singleton]; exact hex
  have hsum1 : ((obsGo i (largestArea (findUnconnectedAreas [e] i)) 0 [e]).map
      (fun o => stationWeight [e] i o.2.1)).sum = 1 :=
    obsWeightSum_eq_one [e] i _ hndall hall hexall
  have hstate := buildState_eq_obsFold [e] i none ρ
  have hrows : (buildState [e] i none ρ).rows = [] := by
    rw [hstate]
    exact foldNone_rows_eq ρ (stationWeight [e] i) _ hndL ⟨[], [], 0, []⟩
      (fun o _ => rfl)
  have hsys : buildSystem [e] i none ρ =
      [((buildState [e] i none ρ).normA, (buildState [e] i none ρ).normB + ρ)] := by
    simp only [buildSystem]
    rw [hrows]
    simp
  have hnormA : ∀ y : ℕ → ℚ, rowApply ((buildState [e] i none ρ).normA) y =
      ((obsGo i (largestArea (findUnconnectedAreas [e] i)) 0 [e]).map
        (fun o => stationWeight [e] i o.2.1 * y o.1)).sum := by
    intro y
    rw [hstate,
      foldNone_normA_apply ρ (stationWeight [e] i) y _ ⟨[], [], 0, []⟩]
    simp [rowApply]
  have hnormB : (buildState [e] i none ρ).normB =
      -((obsGo i (largestArea (findUnconnectedAreas [e] i)) 0 [e]).map
        (fun o => stationWeight [e] i o.2.1 * o.2.2)).sum := by
    rw [hstate,
      foldNone_normB ρ (stationWeight [e] i) _ ⟨[], [], 0, []⟩]
    simp
  have happx : rowApply ((buildState [e] i none ρ).normA) x = x 0 := by
    rw [hnormA x]
    rw [List.map_congr_left (fun o ho =>
      (by rw [hfirst o ho] :
        stationWeight [e] i o.2.1 * x o.1 = stationWeight [e] i o.2.1 * x 0))]
    rw [List.sum_map_mul_right, hsum1]
    ring
  have hwls : weightedLogSum [e] i (fun _ => 0) =
      ((obsGo i (largestArea (findUnconnectedAreas [e] i)) 0 [e]).map
        (fun o => stationWeight [e] i o.2.1 * o.2.2)).sum := by
    unfold weightedLogSum
    exact congrArg List.sum (List.map_congr_left (fun o _ => by ring))
  have hsnd : sumSnd ((buildState [e] i none ρ).normA) = 1 := by
    rw [hstate,
      foldNone_sumSnd ρ (stationWeight [e] i) _ ⟨[], [], 0, []⟩]
    simpa [sumSnd] using hsum1
  have hx0 : x 0 = (buildState [e] i none ρ).normB + ρ := by
    have hy := hx (fun _ => (buildState [e] i none ρ).normB + ρ)
    rw [hsys] at hy
    have happy : rowApply ((buildState [e] i none ρ).normA)
        (fun _ => (buildState [e] i none ρ).normB + ρ) =
        (buildState [e] i none ρ).normB + ρ := by
      rw [rowApply_const, hsnd]
      ring
    simp only [sqResidual, rowResidual, List.map_cons, List.map_nil,
      List.sum_cons, List.sum_nil] at hy
    rw [happx, happy] at hy
    nlinarith [sq_nonneg (x 0 - ((buildState [e] i none ρ).normB + ρ))]
  refine ⟨fun b => by simp [effectiveUseSparse], ?_, ?_⟩
  · rw [hx0, hnormB, hwls]
    ring
  · rw [hx0, hnormB, hwls]
    constructor
    · intro h0; linarith
    · intro h0; linarith

/-- Concrete single-event input of the C5 counterexample: station 3 with
log-amplitude 2 (i.e. amplification e^2), reference log-response 0
(response 1.0). -/
def cEventC5 : ℕ × EventRes := (0, ⟨[some 1], [(3, [some 2])]⟩)

theorem cSystemC5 : buildSystem [cEventC5] 0 none 0 = [([(0, 1)], -2)] := by
  have h1 : findUnconnectedAreas [cEventC5] 0 = [{3}] := by decide
  have h2 : largestArea [({3} : Finset ℕ)] = {3} := by decide
  have hw : stationWeight [cEventC5] 0 3 = 1 := by
    unfold stationWeight
    rw [show nStations [cEventC5] 0 3 = 1 from by decide,
      show numValidStations [cEventC5] 0 = 1 from by decide]
    norm_num
  have hobs : obsGo 0 ({3} : Finset ℕ) 0 [cEventC5] = [(0, 3, 2)] := by decide
  have hbs : buildState [cEventC5] 0 none 0 =
      (obsGo 0 ({3} : Finset ℕ) 0 [cEventC5]).foldl
        (obsFoldStep none 0 (stationWeight [cEventC5] 0)) ⟨[], [], 0, []⟩ := by
    rw [buildState_eq_obsFold, h1, h2]
  have hstate : buildState [cEventC5] 0 none 0 = ⟨[], [(0, 1)], -2, [(3, (0, 2))]⟩ := by
    rw [hbs, hobs]
    simp [obsFoldStep, obsStep, bumpNorm, setLast, List.lookup, hw]
  simp only [buildSystem]
  rw [hstate]
  norm_num

/-- C5 counterexample: for a single-event result set whose only station
has log-amplitude 2 and reference response 1 (log 0), the unique
least-squares solution of the assembled system is the log-factor -2, so
the factor is e^-2, not the claimed exact 1.0. -/
theorem singleEvent_factor_cex :
    IsLSQSolution (buildSystem [cEventC5] 0 none 0) (fun _ => -2) ∧
    (∀ x, IsLSQSolution (buildSystem [cEventC5] 0 none 0) x → x 0 = -2) ∧
    (-2 : ℚ) ≠ 0 := by
  refine ⟨?_, ?_, by norm_num⟩
  · intro y
    rw [cSystemC5]
    simp only [sqResidual, rowResidual, rowApply, List.map_cons, List.map_nil,
      List.sum_cons, List.sum_nil]
    nlinarith [sq_nonneg (y 0 + 2)]
  · intro x hx
    have hy := hx (fun _ => -2)
    rw [cSystemC5] at hy
    simp only [sqResidual, rowResidual, rowApply, List.map_cons, List.map_nil,
      List.sum_cons, List.sum_nil] at hy
    nlinarith [sq_nonneg (x 0 + 2)]

/-- Witness for the amended C5 at the concrete single-event input. -/
theorem singleEvent_dense_and_factor_witness :
    (cEventC5.2.R.map Prod.fst).Nodup ∧ (validSet cEventC5.2 0).Nonempty ∧
    ((∀ b : Bool, effectiveUseSparse [cEventC5] b = false) ∧
     (fun _ : ℕ => (-2 : ℚ)) 0 = 0 - weightedLogSum [cEventC5] 0 (fun _ => 0) ∧
     ((fun _ : ℕ => (-2 : ℚ)) 0 = 0 ↔ weightedLogSum [cEventC5] 0 (fun _ => 0) = 0)) :=
  ⟨by decide, by decide,
   singleEvent_dense_and_factor cEventC5 0 0 (by decide) (by decide)
     (fun _ => -2)
     (by
       intro y
       rw [cSystemC5]
       simp only [sqResidual, rowResidual, rowApply, List.map_cons, List.map_nil,
         List.sum_cons, List.sum_nil]
       nlinarith [sq_nonneg (y 0 + 2)])⟩

/-! ### Pinned-station behaviour (claim C3) -/

/-- One observation step only ever appends rows. -/
theorem obsStep_rows_shape (pinned : Option ℕ) (ρ : ℚ) (fac : ℕ → ℚ) (k : ℕ)
    (st : BuildState) (sta : ℕ) (ℓ : ℚ) :
    (obsStep pinned ρ fac k st sta ℓ).rows = st.rows ∨
    (obsStep pinned ρ fac k st sta ℓ).rows = st.rows ++ [([(k, 1)], ρ - ℓ)] ∨
    ∃ kl ℓl, (obsStep pinned ρ fac k st sta ℓ).rows =
      st.rows ++ [([(k, 1), (kl, -1)], ℓl - ℓ)] := by
  unfold obsStep
  by_cases hn : pinned = none
  · subst hn
    simp only [if_pos rfl]
    cases h : st.last.lookup sta with
    | none => left; simp [h]
    | some v =>
        cases v with
        | mk kl ℓl => right; right; exact ⟨kl, ℓl, by simp [h]⟩
  · rw [if_neg hn]
    by_cases hs : pinned = some sta
    · rw [if_pos hs]
      right; left; rfl
    · rw [if_neg hs]
      cases h : st.last.lookup sta with
      | none => left; simp [h]
      | some v =>
          cases v with
          | mk kl ℓl => right; right; exact ⟨kl, ℓl, by simp [h]⟩

theorem obsStep_rows_mono (pinned : Option ℕ) (ρ : ℚ) (fac : ℕ → ℚ) (k : ℕ)
    (st : BuildState) (sta : ℕ) (ℓ : ℚ) {r : SystemRow} (hr : r ∈ st.rows) :
    r ∈ (obsStep pinned ρ fac k st sta ℓ).rows := by
  rcases obsStep_rows_shape pinned ρ fac k st sta ℓ with h | h | ⟨kl, ℓl, h⟩ <;>
    rw [h] <;> first
      | exact hr
      | exact List.mem_append_left _ hr

/-- The pin row emitted when the observed station is the pinned one
(site.py lines 258-261). -/
theorem obsStep_pin_mem (ρ : ℚ) (fac : ℕ → ℚ) (k : ℕ) (st : BuildState)
    (sta : ℕ) (ℓ : ℚ) :
    ([(k, 1)], ρ - ℓ) ∈ (obsStep (some sta) ρ fac k st sta ℓ).rows := by
  unfold obsStep
  simp

theorem fold_rows_mono (pinned : Option ℕ) (ρ : ℚ) (fac : ℕ → ℚ) :
    ∀ (L : List (ℕ × ℕ × ℚ)) (st : BuildState) (r : SystemRow), r ∈ st.rows →
      r ∈ (L.foldl (obsFoldStep pinned ρ fac) st).rows := by
  intro L
  induction L with
  | nil => intro st r hr; exact hr
  | cons o rest ih =>
      intro st r hr
      exact ih _ r (obsStep_rows_mono pinned ρ fac o.1 st o.2.1 o.2.2 hr)

theorem fold_pin_mem (S : ℕ) (ρ : ℚ) (fac : ℕ → ℚ) :
    ∀ (L : List (ℕ × ℕ × ℚ)) (st : BuildState) (o : ℕ × ℕ × ℚ),
      o ∈ L → o.2.1 = S →
      ([(o.1, 1)], ρ - o.2.2) ∈ (L.foldl (obsFoldStep (some S) ρ fac) st).rows := by
  intro L
  induction L with
  | nil => intro st o ho; cases ho
  | cons o' rest ih =>
      intro st o ho hS
      rcases List.mem_cons.mp ho with rfl | hrest
      · rw [List.foldl_cons]
        apply fold_rows_mono
        rw [show obsFoldStep (some S) ρ fac st o =
          obsStep (some S) ρ fac o.1 st o.2.1 o.2.2 from rfl]
        rw [hS]
        have := obsStep_pin_mem ρ fac o.1 st o.2.1 o.2.2
        rw [hS] at this
        exact this
      · exact ih _ o hrest hS

/-- C3 amended: every valid in-area observation of the pinned station `S`
contributes a pin row `x k = log(response) - log(R_S(k))` to the
least-squares system; therefore the rescaled (log-)amplification of `S`
equals the (log-)reference in every such event PROVIDED the solution
satisfies the system's rows with zero residual (e.g. when the system is
consistent).  The general least-squares solution trades the pin rows
against the pair rows of other stations and does not pin exactly. -/
theorem pinned_station_rows_force (events : List (ℕ × EventRes)) (i : ℕ)
    (S : ℕ) (ρ : ℚ) (x : ℕ → ℚ) (k : ℕ) (ℓ : ℚ)
    (hmem : (k, S, ℓ) ∈ obsGo i (largestArea (findUnconnectedAreas events i)) 0 events)
    (hzero : ∀ r ∈ buildSystem events i (some S) ρ, rowResidual r x = 0) :
    ℓ + x k = ρ := by
  have hpin : ([(k, 1)], ρ - ℓ) ∈ buildSystem events i (some S) ρ := by
    simp only [buildSystem]
    rw [buildState_eq_obsFold]
    have := fold_pin_mem S ρ (stationWeight events i) _ ⟨[], [], 0, []⟩ (k, S, ℓ) hmem rfl
    simp only at this
    simp [this]
  have := hzero _ hpin
  simp only [rowResidual, rowApply, List.map_cons, List.map_nil,
    List.sum_cons, List.sum_nil] at this
  linarith

/-- Concrete input of the C3 counterexample: two events; pinned station 0
has log-amplitude 0 in both; station 1 has log-amplitudes 0 and -2
(inconsistent with the pinned rows), reference log-response 0. -/
def cEventsC3 : List (ℕ × EventRes) :=
  [(0, ⟨[some 1], [(0, [some 0]), (1, [some 0])]⟩),
   (1, ⟨[some 1], [(0, [some 0]), (1, [some (-2)])]⟩)]

theorem cSystemC3 : buildSystem cEventsC3 0 (some 0) 0 =
    [([(0, 1)], 0), ([(1, 1)], 0), ([(1, 1), (0, -1)], 2)] := by
  have h1 : findUnconnectedAreas cEventsC3 0 = [{0, 1}] := by decide
  have h2 : largestArea [({0, 1} : Finset ℕ)] = {0, 1} := by decide
  have hobs : obsGo 0 ({0, 1} : Finset ℕ) 0 cEventsC3 =
      [(0, 0, 0), (0, 1, 0), (1, 0, 0), (1, 1, -2)] := by decide
  have hbs : buildState cEventsC3 0 (some 0) 0 =
      (obsGo 0 ({0, 1} : Finset ℕ) 0 cEventsC3).foldl
        (obsFoldStep (some 0) 0 (stationWeight cEventsC3 0)) ⟨[], [], 0, []⟩ := by
    rw [buildState_eq_obsFold, h1, h2]
  have hstate : buildState cEventsC3 0 (some 0) 0 =
      ⟨[([(0, 1)], 0), ([(1, 1)], 0), ([(1, 1), (0, -1)], 2)], [], 0,
        [(1, (1, -2))]⟩ := by
    rw [hbs, hobs]
    simp [obsFoldStep, obsStep, setLast, List.lookup]
  simp only [buildSystem]
  rw [hstate]
  simp

/-- C3 counterexample: with the pinned rows `x0 = 0`, `x1 = 0` and the
pair row `x1 - x0 = 2` of station 1, the unique least-squares solution is
`x = (-2/3, 2/3)`; the rescaled log-amplification of the pinned station in
event 0 is `0 + (-2/3) ≠ 0`, i.e. off the reference by a factor e^(2/3) —
far beyond floating-point tolerance. -/
theorem pinned_station_cex :
    IsLSQSolution (buildSystem cEventsC3 0 (some 0) 0)
      (fun k => if k = 0 then -2/3 else 2/3) ∧
    (∀ x, IsLSQSolution (buildSystem cEventsC3 0 (some 0) 0) x → x 0 = -2/3) ∧
    ((0 : ℚ) + (-2/3) ≠ 0) := by
  refine ⟨?_, ?_, by norm_num⟩
  · apply isLSQ_of_perp
    intro d
    rw [cSystemC3]
    simp only [rowResidual, rowApply, List.map_cons, List.map_nil,
      List.sum_cons, List.sum_nil]
    norm_num
    ring
  · intro x hx
    have hy := hx (fun k => if k = 0 then -2/3 else 2/3)
    rw [cSystemC3] at hy
    simp only [sqResidual, rowResidual, rowApply, List.map_cons, List.map_nil,
      List.sum_cons, List.sum_nil] at hy
    norm_num at hy
    have hsq : (x 0 + 2/3) ^ 2 ≤ 0 := by
      nlinarith [sq_nonneg (x 1 - 2/3), sq_nonneg (x 1 - x 0 - 4/3)]
    nlinarith [sq_nonneg (x 0 + 2/3)]

/-- Concrete input of the C3 witness: a consistent system (only the pinned
station observed), log-amplitudes 1 and 3, log-reference 4. -/
def cEventsC3W : List (ℕ × EventRes) :=
  [(10, ⟨[some 1], [(5, [some 1])]⟩), (11, ⟨[some 1], [(5, [some 3])]⟩)]

theorem cSystemC3W : buildSystem cEventsC3W 0 (some 5) 4 =
    [([(0, 1)], 3), ([(1, 1)], 1)] := by
  have h1 : findUnconnectedAreas cEventsC3W 0 = [{5}] := by decide
  have h2 : largestArea [({5} : Finset ℕ)] = {5} := by decide
  have hobs : obsGo 0 ({5} : Finset ℕ) 0 cEventsC3W = [(0, 5, 1), (1, 5, 3)] := by
    decide
  have hbs : buildState cEventsC3W 0 (some 5) 4 =
      (obsGo 0 ({5} : Finset ℕ) 0 cEventsC3W).foldl
        (obsFoldStep (some 5) 4 (stationWeight cEventsC3W 0)) ⟨[], [], 0, []⟩ := by
    rw [buildState_eq_obsFold, h1, h2]
  have hstate : buildState cEventsC3W 0 (some 5) 4 =
      ⟨[([(0, 1)], 3), ([(1, 1)], 1)], [], 0, []⟩ := by
    rw [hbs, hobs]
    simp [obsFoldStep, obsStep, setLast, List.lookup]
    norm_num
  simp only [buildSystem]
  rw [hstate]
  simp

/-- Witness for the amended C3: on a consistent concrete system the
pinned station's rescaled log-amplification equals the log-reference. -/
theorem pinned_station_rows_force_witness :
    ((0, 5, (1 : ℚ)) ∈
      obsGo 0 (largestArea (findUnconnectedAreas cEventsC3W 0)) 0 cEventsC3W) ∧
    (∀ r ∈ buildSystem cEventsC3W 0 (some 5) 4,
      rowResidual r (fun k => if k = 0 then 3 else 1) = 0) ∧
    (1 : ℚ) + (fun k : ℕ => if k = 0 then (3 : ℚ) else 1) 0 = 4 := by
  have hz : ∀ r ∈ buildSystem cEventsC3W 0 (some 5) 4,
      rowResidual r (fun k : ℕ => if k = 0 then (3 : ℚ) else 1) = 0 := by
    intro r hr
    rw [cSystemC3W] at hr
    simp only [List.mem_cons, List.not_mem_nil, or_false] at hr
    rcases hr with rfl | rfl
    · simp [rowResidual, rowApply]
    · simp [rowResidual, rowApply]
  exact ⟨by decide, hz,
    pinned_station_rows_force cEventsC3W 0 5 4
      (fun k : ℕ => if k = 0 then (3 : ℚ) else 1) 0 1 (by decide) hz⟩

/-! ### The normalization row at a least-squares optimum (claim C4) -/

theorem listSum_map_add {β : Type*} (l : List β) (f g : β → ℚ) :
    (l.map (fun o => f o + g o)).sum = (l.map f).sum + (l.map g).sum := by
  induction l with
  | nil => simp
  | cons a rest ih =>
      simp only [List.map_cons, List.sum_cons]
      rw [ih]; ring

/-- C4 amended: the per-station counts feeding the weights are taken over
the whole result set (all stations with valid observations in the band,
with no restriction to the selected area); when every such station lies in
the selected area, the normalization row's coefficients sum to exactly 1,
and any least-squares solution of the assembled system satisfies the
normalization row exactly — the pair rows are invariant under a common
shift of all log-factors, so the optimum zeroes the normalization
residual — making the weighted (log-)geometric mean of the rescaled
amplifications equal the (log-)reference. -/
theorem normalization_row_after_alignment (events : List (ℕ × EventRes))
    (i : ℕ) (ρ : ℚ)
    (hnd : ∀ p ∈ events, (p.2.R.map Prod.fst).Nodup)
    (hall : ∀ sta ∈ allValidStations events i,
      sta ∈ largestArea (findUnconnectedAreas events i))
    (hex : (allValidStations events i).Nonempty)
    (x : ℕ → ℚ) (hx : IsLSQSolution (buildSystem events i none ρ) x) :
    sumSnd ((buildState events i none ρ).normA) = 1 ∧
    weightedLogSum events i x = ρ := by
  have hsum1 := obsWeightSum_eq_one events i
    (largestArea (findUnconnectedAreas events i)) hnd hall hex
  have hstate := buildState_eq_obsFold events i none ρ
  have hsnd : sumSnd ((buildState events i none ρ).normA) = 1 := by
    rw [hstate,
      foldNone_sumSnd ρ (stationWeight events i) _ ⟨[], [], 0, []⟩]
    simpa [sumSnd] using hsum1
  have hpair : ∀ r ∈ (buildState events i none ρ).rows, sumSnd r.1 = 0 := by
    intro r hr
    rw [hstate] at hr
    rcases foldNone_rows ρ (stationWeight events i) _ ⟨[], [], 0, []⟩ r hr with
      hmem | ⟨a, b, c, rfl⟩
    · cases hmem
    · simp [sumSnd]
  have hsys : buildSystem events i none ρ =
      (buildState events i none ρ).rows ++
        [((buildState events i none ρ).normA, (buildState events i none ρ).normB + ρ)] := by
    simp [buildSystem]
  set nr : SystemRow :=
    ((buildState events i none ρ).normA, (buildState events i none ρ).normB + ρ) with hnr
  set resn : ℚ := rowResidual nr x with hresn
  -- the optimum zeroes the normalization residual
  have hres0 : resn = 0 := by
    have hy := hx (fun c => x c + (fun _ : ℕ => -resn) c)
    rw [hsys] at hy
    rw [sqResidual_expand ((buildState events i none ρ).rows ++ [nr]) x
      (fun _ => -resn)] at hy
    have hcross : (((buildState events i none ρ).rows ++ [nr]).map
        (fun r => rowResidual r x * rowApply r.1 (fun _ => -resn))).sum =
        -(resn * resn) := by
      rw [List.map_append, List.sum_append]
      have h1 : (((buildState events i none ρ).rows).map
          (fun r => rowResidual r x * rowApply r.1 (fun _ => -resn))).sum = 0 := by
        apply List.sum_eq_zero
        intro q hq
        rcases List.mem_map.mp hq with ⟨r, hr, rfl⟩
        rw [rowApply_const, hpair r hr]
        ring
      rw [h1]
      simp only [List.map_cons, List.map_nil, List.sum_cons, List.sum_nil]
      rw [rowApply_const, hnr]
      simp only [hsnd]
      rw [← hnr, ← hresn]
      ring
    have hsq : (((buildState events i none ρ).rows ++ [nr]).map
        (fun r => (rowApply r.1 (fun _ => -resn)) ^ 2)).sum = resn ^ 2 := by
      rw [List.map_append, List.sum_append]
      have h1 : (((buildState events i none ρ).rows).map
          (fun r => (rowApply r.1 (fun _ => -resn)) ^ 2)).sum = 0 := by
        apply List.sum_eq_zero
        intro q hq
        rcases List.mem_map.mp hq with ⟨r, hr, rfl⟩
        rw [rowApply_const, hpair r hr]
        ring
      rw [h1]
      simp only [List.map_cons, List.map_nil, List.sum_cons, List.sum_nil]
      rw [rowApply_const]
      simp only [hsnd]
      ring
    rw [hcross, hsq, ← hsys] at hy
    nlinarith [sq_nonneg resn]
  refine ⟨hsnd, ?_⟩
  -- the normalization row pins the weighted log mean
  have happ : rowApply ((buildState events i none ρ).normA) x =
      ((obsGo i (largestArea (findUnconnectedAreas events i)) 0 events).map
        (fun o => stationWeight events i o.2.1 * x o.1)).sum := by
    rw [hstate,
      foldNone_normA_apply ρ (stationWeight events i) x _ ⟨[], [], 0, []⟩]
    simp [rowApply]
  have hnormB : (buildState events i none ρ).normB =
      -((obsGo i (largestArea (findUnconnectedAreas events i)) 0 events).map
        (fun o => stationWeight events i o.2.1 * o.2.2)).sum := by
    rw [hstate,
      foldNone_normB ρ (stationWeight events i) _ ⟨[], [], 0, []⟩]
    simp
  have hreseq : rowApply ((buildState events i none ρ).normA) x =
      (buildState events i none ρ).normB + ρ := by
    have : rowResidual nr x = 0 := hres0
    rw [hnr] at this
    simp only [rowResidual] at this
    linarith
  unfold weightedLogSum
  have hsplit : ((obsGo i (largestArea (findUnconnectedAreas events i)) 0 events).map
      (fun o => stationWeight events i o.2.1 * (o.2.2 + x o.1))).sum =
      ((obsGo i (largestArea (findUnconnectedAreas events i)) 0 events).map
        (fun o => stationWeight events i o.2.1 * o.2.2)).sum +
      ((obsGo i (largestArea (findUnconnectedAreas events i)) 0 events).map
        (fun o => stationWeight events i o.2.1 * x o.1)).sum := by
    rw [← listSum_map_add]
    exact congrArg List.sum (List.map_congr_left (fun o _ => by ring))
  rw [hsplit, ← happ, hreseq, hnormB]
  ring

/-- Concrete input of the C4 counterexample: stations 1 and 2 are never
co-observed, so the band has two areas {1} and {2}; the first, {1}, is
chosen as the largest area. -/
def cEventsC4 : List (ℕ × EventRes) :=
  [(0, ⟨[some 1], [(1, [some 0])]⟩), (1, ⟨[some 1], [(2, [some 0])]⟩)]

/-- C4 counterexample: with two unconnected areas, the per-station counts
feeding the weights are dataset-wide (`len(Nstations[i])` counts station 2
outside the selected area), so the normalization row's coefficients sum to
1/2, not 1. -/
theorem normalization_row_sum_cex :
    sumSnd ((buildState cEventsC4 0 none 0).normA) = 1 / 2 ∧
    (1 / 2 : ℚ) ≠ 1 := by
  have h1 : findUnconnectedAreas cEventsC4 0 = [{1}, {2}] := by decide
  have h2 : largestArea [({1} : Finset ℕ), {2}] = {1} := by decide
  have hobs : obsGo 0 ({1} : Finset ℕ) 0 cEventsC4 = [(0, 1, 0)] := by decide
  have hw : stationWeight cEventsC4 0 1 = 1 / 2 := by
    unfold stationWeight
    rw [show nStations cEventsC4 0 1 = 1 from by decide,
      show numValidStations cEventsC4 0 = 2 from by decide]
    norm_num
  have hbs : buildState cEventsC4 0 none 0 =
      (obsGo 0 ({1} : Finset ℕ) 0 cEventsC4).foldl
        (obsFoldStep none 0 (stationWeight cEventsC4 0)) ⟨[], [], 0, []⟩ := by
    rw [buildState_eq_obsFold, h1, h2]
  have hstate : buildState cEventsC4 0 none 0 = ⟨[], [(0, 1 / 2)], 0, [(1, (0, 0))]⟩ := by
    rw [hbs, hobs]
    simp [obsFoldStep, obsStep, bumpNorm, setLast, List.lookup, hw]
  rw [hstate]
  norm_num [sumSnd]

/-- Concrete input of the C4 witness: one station observed in both events
with equal log-amplitude 0, log-reference 7; the constant log-factor 7 is
the least-squares solution. -/
def cEventsC4W : List (ℕ × EventRes) :=
  [(0, ⟨[some 1], [(5, [some 0])]⟩), (1, ⟨[some 1], [(5, [some 0])]⟩)]

theorem cSystemC4W : buildSystem cEventsC4W 0 none 7 =
    [([(1, 1), (0, -1)], 0), ([(0, 1 / 2), (1, 1 / 2)], 7)] := by
  have h1 : findUnconnectedAreas cEventsC4W 0 = [{5}] := by decide
  have h2 : largestArea [({5} : Finset ℕ)] = {5} := by decide
  have hobs : obsGo 0 ({5} : Finset ℕ) 0 cEventsC4W = [(0, 5, 0), (1, 5, 0)] := by
    decide
  have hw : stationWeight cEventsC4W 0 5 = 1 / 2 := by
    unfold stationWeight
    rw [show nStations cEventsC4W 0 5 = 2 from by decide,
      show numValidStations cEventsC4W 0 = 1 from by decide]
    norm_num
  have hbs : buildState cEventsC4W 0 none 7 =
      (obsGo 0 ({5} : Finset ℕ) 0 cEventsC4W).foldl
        (obsFoldStep none 7 (stationWeight cEventsC4W 0)) ⟨[], [], 0, []⟩ := by
    rw [buildState_eq_obsFold, h1, h2]
  have hstate : buildState cEventsC4W 0 none 7 =
      ⟨[([(1, 1), (0, -1)], 0)], [(0, 1 / 2), (1, 1 / 2)], 0, [(5, (1, 0))]⟩ := by
    rw [hbs, hobs]
    simp [obsFoldStep, obsStep, bumpNorm, setLast, List.lookup, hw]
  simp only [buildSystem]
  rw [hstate]
  norm_num

/-- Witness for the amended C4 at the concrete consistent input. -/
theorem normalization_row_after_alignment_witness :
    IsLSQSolution (buildSystem cEventsC4W 0 none 7) (fun _ => 7) ∧
    (sumSnd ((buildState cEventsC4W 0 none 7).normA) = 1 ∧
     weightedLogSum cEventsC4W 0 (fun _ => 7) = 7) := by
  have hlsq : IsLSQSolution (buildSystem cEventsC4W 0 none 7) (fun _ => 7) := by
    intro y
    rw [cSystemC4W]
    simp only [sqResidual, rowResidual, rowApply, List.map_cons, List.map_nil,
      List.sum_cons, List.sum_nil]
    nlinarith [sq_nonneg (y 1 - y 0), sq_nonneg (y 0 / 2 + y 1 / 2 - 7)]
  exact ⟨hlsq,
    normalization_row_after_alignment cEventsC4W 0 7 (by decide) (by decide)
      (by decide) (fun _ => 7) hlsq⟩

/-! ### Correctness of `_merge_sets` (claim C8)

The fixpoint of the merging loop is the list of connected components of
the input family under the overlap relation: the returned sets are
pairwise disjoint, cover the same elements, contain every input set, and
every returned set is a union of overlap-connected input sets. -/

theorem insertSet_length (a : Finset α) :
    ∀ acc : List (Finset α), (insertSet a acc).length = acc.length ∨
      (insertSet a acc).length = acc.length + 1 := by
  intro acc
  induction acc with
  | nil => right; rfl
  | cons s rest ih =>
      by_cases h : s ∩ a = ∅
      · rcases ih with h1 | h1
        · left; simp [insertSet, h, h1]
        · right; simp [insertSet, h, h1]
      · left; simp [insertSet, h]

theorem insertSet_append_of_length (a : Finset α) :
    ∀ acc : List (Finset α), (insertSet a acc).length = acc.length + 1 →
      insertSet a acc = acc ++ [a] ∧ ∀ s ∈ acc, s ∩ a = ∅ := by
  intro acc
  induction acc with
  | nil => intro _; exact ⟨rfl, by simp⟩
  | cons s rest ih =>
      intro hlen
      by_cases h : s ∩ a = ∅
      · rw [insertSet, if_pos h] at hlen ⊢
        simp only [List.length_cons] at hlen
        obtain ⟨happ, hdisj⟩ := ih (by omega)
        refine ⟨by rw [happ]; rfl, ?_⟩
        intro t ht
        rcases List.mem_cons.mp ht with rfl | ht
        · exact h
        · exact hdisj t ht
      · rw [insertSet, if_neg h] at hlen
        simp at hlen
  
theorem foldl_insert_length_le :
    ∀ (l : List (Finset α)) (acc : List (Finset α)),
      (l.foldl (fun acc a => insertSet a acc) acc).length ≤ acc.length + l.length := by
  intro l
  induction l with
  | nil => intro acc; simp
  | cons a rest ih =>
      intro acc
      rw [List.foldl_cons]
      have h1 := ih (insertSet a acc)
      rcases insertSet_length a acc with h2 | h2 <;>
        simp only [List.length_cons] <;> omega

theorem foldl_insert_fixpoint :
    ∀ (l : List (Finset α)) (acc : List (Finset α)),
      (l.foldl (fun acc a => insertSet a acc) acc).length = acc.length + l.length →
      l.foldl (fun acc a => insertSet a acc) acc = acc ++ l ∧
        (∀ s ∈ acc, ∀ a ∈ l, s ∩ a = ∅) ∧
        l.Pairwise (fun s t => s ∩ t = ∅) := by
  intro l
  induction l with
  | nil => intro acc _; simp
  | cons a rest ih =>
      intro acc hlen
      rw [List.foldl_cons] at hlen
      have hins : (insertSet a acc).length = acc.length + 1 := by
        rcases insertSet_length a acc with h | h
        · have := foldl_insert_length_le rest (insertSet a acc)
          simp only [List.length_cons] at hlen
          omega
        · exact h
      obtain ⟨happ, hdisj⟩ := insertSet_append_of_length a acc hins
      have hlen2 : (rest.foldl (fun acc a => insertSet a acc) (insertSet a acc)).length =
          (insertSet a acc).length + rest.length := by
        simp only [List.length_cons] at hlen
        omega
      obtain ⟨hres, hdisj2, hpair⟩ := ih (insertSet a acc) hlen2
      refine ⟨?_, ?_, ?_⟩
      · rw [List.foldl_cons, hres, happ, List.append_assoc]
        rfl
      · intro s hs b hb
        rcases List.mem_cons.mp hb with rfl | hb
        · exact hdisj s hs
        · exact hdisj2 s (by rw [happ]; exact List.mem_append_left _ hs) b hb
      · rw [List.pairwise_cons]
        refine ⟨?_, hpair⟩
        intro b hb
        exact hdisj2 a (by rw [happ]; exact List.mem_append_right _ (by simp)) b hb

theorem mergePass_length_le (l : List (Finset α)) :
    (mergePass l).length ≤ l.length := by
  have := foldl_insert_length_le l ([] : List (Finset α))
  simpa [mergePass] using this

theorem mergePass_fixpoint (l : List (Finset α))
    (h : (mergePass l).length = l.length) :
    mergePass l = l ∧ l.Pairwise (fun s t => s ∩ t = ∅) := by
  have := foldl_insert_fixpoint l ([] : List (Finset α)) (by simpa [mergePass] using h)
  exact ⟨by simpa [mergePass] using this.1, this.2.2⟩

/-- The loop returns a pairwise disjoint list when started with enough
fuel (the length strictly decreases on every continuing iteration). -/
theorem mergeLoop_pairwise :
    ∀ (fuel : ℕ) (cur : List (Finset α)), cur.length < fuel →
      (mergeLoop fuel cur).Pairwise (fun s t => s ∩ t = ∅) := by
  intro fuel
  induction fuel with
  | zero => intro cur h; omega
  | succ n ih =>
      intro cur hlt
      simp only [mergeLoop]
      by_cases h : (mergePass cur).length = cur.length
      · rw [if_pos h]
        obtain ⟨heq, hpair⟩ := mergePass_fixpoint cur h
        rw [heq]; exact hpair
      · rw [if_neg h]
        apply ih
        have := mergePass_length_le cur
        omega

theorem mergeSets_pairwise (l : List (Finset α)) :
    (mergeSets l).Pairwise (fun s t => s ∩ t = ∅) := by
  unfold mergeSets
  by_cases h : l.length = 0
  · rw [if_pos h]
    rw [List.length_eq_zero] at h
    rw [h]; exact List.Pairwise.nil
  · rw [if_neg h]
    exact mergeLoop_pairwise (l.length + 1) l (by omega)

/-- Overlap-step relation of a family of sets: two stations are related
when some set of the family contains both. -/
def stepRel (L : List (Finset α)) (x y : α) : Prop :=
  ∃ s ∈ L, x ∈ s ∧ y ∈ s

/-- Connectivity: the reflexive-transitive closure of the overlap step. -/
def Conn (L : List (Finset α)) : α → α → Prop :=
  Relation.ReflTransGen (stepRel L)

/-- A set all of whose members are pairwise connected w.r.t. `L`. -/
def ConnClosed (L : List (Finset α)) (m : Finset α) : Prop :=
  ∀ x ∈ m, ∀ y ∈ m, Conn L x y

theorem insertSet_mem_iff (a : Finset α) (x : α) :
    ∀ acc : List (Finset α),
      ((∃ s ∈ insertSet a acc, x ∈ s) ↔ (∃ s ∈ acc, x ∈ s) ∨ x ∈ a) := by
  intro acc
  induction acc with
  | nil => simp [insertSet]
  | cons s rest ih =>
      by_cases h : s ∩ a = ∅
      · rw [insertSet, if_pos h]
        simp only [List.mem_cons] at ih ⊢
        constructor
        · rintro ⟨t, ht | ht, hx⟩
          · exact Or.inl ⟨t, Or.inl ht, hx⟩
          · rcases ih.mp ⟨t, ht, hx⟩ with ⟨u, hu, hxu⟩ | hxa
            · exact Or.inl ⟨u, Or.inr hu, hxu⟩
            · exact Or.inr hxa
        · rintro (⟨t, ht | ht, hx⟩ | hxa)
          · exact ⟨t, Or.inl ht, hx⟩
          · rcases ih.mpr (Or.inl ⟨t, ht, hx⟩) with ⟨u, hu, hxu⟩
            exact ⟨u, Or.inr hu, hxu⟩
          · rcases ih.mpr (Or.inr hxa) with ⟨u, hu, hxu⟩
            exact ⟨u, Or.inr hu, hxu⟩
      · rw [insertSet, if_neg h]
        simp only [List.mem_cons]
        constructor
        · rintro ⟨t, ht | ht, hx⟩
          · rcases Finset.mem_union.mp (ht ▸ hx) with hx | hx
            · exact Or.inl ⟨s, Or.inl rfl, hx⟩
            · exact Or.inr hx
          · exact Or.inl ⟨t, Or.inr ht, hx⟩
        · rintro (⟨t, ht | ht, hx⟩ | hxa)
          · exact ⟨s ∪ a, Or.inl rfl, Finset.mem_union_left _ (ht ▸ hx)⟩
          · exact ⟨t, Or.inr ht, hx⟩
          · exact ⟨s ∪ a, Or.inl rfl, Finset.mem_union_right _ hxa⟩

theorem foldl_insert_mem_iff (x : α) :
    ∀ (l : List (Finset α)) (acc : List (Finset α)),
      ((∃ s ∈ l.foldl (fun acc a => insertSet a acc) acc, x ∈ s) ↔
        (∃ s ∈ acc, x ∈ s) ∨ (∃ s ∈ l, x ∈ s)) := by
  intro l
  induction l with
  | nil => intro acc; simp
  | cons a rest ih =>
      intro acc
      rw [List.foldl_cons, ih (insertSet a acc)]
      rw [insertSet_mem_iff a x acc]
      simp only [List.mem_cons]
      constructor
      · rintro ((h | h) | ⟨s, hs, hx⟩)
        · exact Or.inl h
        · exact Or.inr ⟨a, Or.inl rfl, h⟩
        · exact Or.inr ⟨s, Or.inr hs, hx⟩
      · rintro (h | ⟨s, rfl | hs, hx⟩)
        · exact Or.inl (Or.inl h)
        · exact Or.inl (Or.inr hx)
        · exact Or.inr ⟨s, hs, hx⟩

theorem mergePass_mem_iff (l : List (Finset α)) (x : α) :
    (∃ s ∈ mergePass l, x ∈ s) ↔ (∃ s ∈ l, x ∈ s) := by
  rw [mergePass, foldl_insert_mem_iff]
  simp

theorem insertSet_subset_exists (a : Finset α) :
    ∀ acc : List (Finset α),
      (∀ m ∈ acc, ∃ m' ∈ insertSet a acc, m ⊆ m') ∧
      (∃ m' ∈ insertSet a acc, a ⊆ m') := by
  intro acc
  induction acc with
  | nil => exact ⟨by simp, ⟨a, by simp [insertSet]⟩⟩
  | cons s rest ih =>
      by_cases h : s ∩ a = ∅
      · rw [insertSet, if_pos h]
        refine ⟨?_, ?_⟩
        · intro m hm
          rcases List.mem_cons.mp hm with rfl | hm
          · exact ⟨m, List.mem_cons_self _ _, le_refl m⟩
          · rcases ih.1 m hm with ⟨m', hm', hsub⟩
            exact ⟨m', List.mem_cons_of_mem _ hm', hsub⟩
        · rcases ih.2 with ⟨m', hm', hsub⟩
          exact ⟨m', List.mem_cons_of_mem _ hm', hsub⟩
      · rw [insertSet, if_neg h]
        refine ⟨?_, ⟨s ∪ a, List.mem_cons_self _ _, Finset.subset_union_right⟩⟩
        intro m hm
        rcases List.mem_cons.mp hm with rfl | hm
        · exact ⟨m ∪ a, List.mem_cons_self _ _, Finset.subset_union_left⟩
        · exact ⟨m, List.mem_cons_of_mem _ hm, le_refl m⟩

theorem foldl_insert_subset_exists :
    ∀ (l : List (Finset α)) (acc : List (Finset α)),
      (∀ m ∈ acc, ∃ m' ∈ l.foldl (fun acc a => insertSet a acc) acc, m ⊆ m') ∧
      (∀ s ∈ l, ∃ m' ∈ l.foldl (fun acc a => insertSet a acc) acc, s ⊆ m') := by
  intro l
  induction l with
  | nil => intro acc; exact ⟨fun m hm => ⟨m, hm, le_refl m⟩, by simp⟩
  | cons a rest ih =>
      intro acc
      rw [List.foldl_cons]
      refine ⟨?_, ?_⟩
      · intro m hm
        rcases (insertSet_subset_exists a acc).1 m hm with ⟨m1, hm1, hsub1⟩
        rcases (ih (insertSet a acc)).1 m1 hm1 with ⟨m2, hm2, hsub2⟩
        exact ⟨m2, hm2, hsub1.trans hsub2⟩
      · intro s hs
        rcases List.mem_cons.mp hs with rfl | hs
        · rcases (insertSet_subset_exists s acc).2 with ⟨m1, hm1, hsub1⟩
          rcases (ih (insertSet s acc)).1 m1 hm1 with ⟨m2, hm2, hsub2⟩
          exact ⟨m2, hm2, hsub1.trans hsub2⟩
        · exact (ih (insertSet a acc)).2 s hs

theorem mergePass_subset_exists (l : List (Finset α)) :
    ∀ s ∈ l, ∃ m ∈ mergePass l, s ⊆ m :=
  (foldl_insert_subset_exists l []).2

theorem insertSet_exists_subset (a : Finset α) :
    ∀ (acc : List (Finset α)) (m' : Finset α), m' ∈ insertSet a acc →
      (∃ m ∈ acc, m ⊆ m') ∨ a ⊆ m' := by
  intro acc
  induction acc with
  | nil =>
      intro m' hm'
      rw [insertSet] at hm'
      rcases List.mem_singleton.mp hm' with rfl
      exact Or.inr (le_refl m')
  | cons s rest ih =>
      intro m' hm'
      by_cases h : s ∩ a = ∅
      · rw [insertSet, if_pos h] at hm'
        rcases List.mem_cons.mp hm' with rfl | hm'
        · exact Or.inl ⟨m', List.mem_cons_self _ _, le_refl m'⟩
        · rcases ih m' hm' with ⟨m, hm, hsub⟩ | hsub
          · exact Or.inl ⟨m, List.mem_cons_of_mem _ hm, hsub⟩
          · exact Or.inr hsub
      · rw [insertSet, if_neg h] at hm'
        rcases List.mem_cons.mp hm' with rfl | hm'
        · exact Or.inr Finset.subset_union_right
        · exact Or.inl ⟨m', List.mem_cons_of_mem _ hm', le_refl m'⟩

theorem foldl_insert_exists_subset :
    ∀ (l : List (Finset α)) (acc : List (Finset α)) (m' : Finset α),
      m' ∈ l.foldl (fun acc a => insertSet a acc) acc →
      (∃ m ∈ acc, m ⊆ m') ∨ (∃ s ∈ l, s ⊆ m') := by
  intro l
  induction l with
  | nil => intro acc m' hm'; exact Or.inl ⟨m', hm', le_refl m'⟩
  | cons a rest ih =>
      intro acc m' hm'
      rw [List.foldl_cons] at hm'
      rcases ih (insertSet a acc) m' hm' with ⟨m, hm, hsub⟩ | ⟨s, hs, hsub⟩
      · rcases insertSet_exists_subset a acc m hm with ⟨m0, hm0, hsub0⟩ | hsub0
        · exact Or.inl ⟨m0, hm0, hsub0.trans hsub⟩
        · exact Or.inr ⟨a, List.mem_cons_self _ _, hsub0.trans hsub⟩
      · exact Or.inr ⟨s, List.mem_cons_of_mem _ hs, hsub⟩

theorem mergePass_exists_subset (l : List (Finset α)) (m' : Finset α)
    (hm' : m' ∈ mergePass l) : ∃ s ∈ l, s ⊆ m' := by
  rcases foldl_insert_exists_subset l [] m' hm' with ⟨m, hm, _⟩ | h
  · cases hm
  · exact h

theorem insertSet_connClosed (L : List (Finset α)) (a : Finset α)
    (ha : ConnClosed L a) :
    ∀ acc : List (Finset α), (∀ m ∈ acc, ConnClosed L m) →
      ∀ m ∈ insertSet a acc, ConnClosed L m := by
  intro acc
  induction acc with
  | nil =>
      intro _ m hm
      rw [insertSet] at hm
      rcases List.mem_singleton.mp hm with rfl
      exact ha
  | cons s rest ih =>
      intro hacc m hm
      have hs : ConnClosed L s := hacc s (List.mem_cons_self _ _)
      have hrest : ∀ t ∈ rest, ConnClosed L t :=
        fun t ht => hacc t (List.mem_cons_of_mem _ ht)
      by_cases h : s ∩ a = ∅
      · rw [insertSet, if_pos h] at hm
        rcases List.mem_cons.mp hm with rfl | hm
        · exact hs
        · exact ih hrest m hm
      · rw [insertSet, if_neg h] at hm
        rcases List.mem_cons.mp hm with rfl | hm
        · -- m = s ∪ a with s ∩ a nonempty
          obtain ⟨z, hz⟩ := Finset.nonempty_iff_ne_empty.mpr h
          rw [Finset.mem_inter] at hz
          intro x hx y hy
          rcases Finset.mem_union.mp hx with hxs | hxa <;>
            rcases Finset.mem_union.mp hy with hys | hya
          · exact hs x hxs y hys
          · exact (hs x hxs z hz.1).trans (ha z hz.2 y hya)
          · exact (ha x hxa z hz.2).trans (hs z hz.1 y hys)
          · exact ha x hxa y hya
        · exact hrest m hm

theorem mergePass_connClosed (L l : List (Finset α))
    (hl : ∀ s ∈ l, ConnClosed L s) :
    ∀ m ∈ mergePass l, ConnClosed L m := by
  rw [mergePass]
  have : ∀ (l' : List (Finset α)), (∀ s ∈ l', ConnClosed L s) →
      ∀ (acc : List (Finset α)), (∀ m ∈ acc, ConnClosed L m) →
      ∀ m ∈ l'.foldl (fun acc a => insertSet a acc) acc, ConnClosed L m := by
    intro l'
    induction l' with
    | nil => intro _ acc hacc m hm; exact hacc m hm
    | cons a rest ih =>
        intro hl' acc hacc m hm
        rw [List.foldl_cons] at hm
        exact ih (fun s hs => hl' s (List.mem_cons_of_mem _ hs))
          (insertSet a acc)
          (insertSet_connClosed L a (hl' a (List.mem_cons_self _ _)) acc hacc)
          m hm
  exact this l hl [] (by simp)

theorem mergeLoop_mem_iff (x : α) :
    ∀ (fuel : ℕ) (cur : List (Finset α)),
      ((∃ m ∈ mergeLoop fuel cur, x ∈ m) ↔ (∃ s ∈ cur, x ∈ s)) := by
  intro fuel
  induction fuel with
  | zero => intro cur; rfl
  | succ n ih =>
      intro cur
      simp only [mergeLoop]
      by_cases h : (mergePass cur).length = cur.length
      · rw [if_pos h]
        exact mergePass_mem_iff cur x
      · rw [if_neg h]
        rw [ih (mergePass cur)]
        exact mergePass_mem_iff cur x

theorem mergeLoop_subset_exists :
    ∀ (fuel : ℕ) (cur : List (Finset α)) (s : Finset α), s ∈ cur →
      ∃ m ∈ mergeLoop fuel cur, s ⊆ m := by
  intro fuel
  induction fuel with
  | zero => intro cur s hs; exact ⟨s, hs, le_refl s⟩
  | succ n ih =>
      intro cur s hs
      simp only [mergeLoop]
      by_cases h : (mergePass cur).length = cur.length
      · rw [if_pos h]
        exact mergePass_subset_exists cur s hs
      · rw [if_neg h]
        rcases mergePass_subset_exists cur s hs with ⟨m1, hm1, hsub1⟩
        rcases ih (mergePass cur) m1 hm1 with ⟨m2, hm2, hsub2⟩
        exact ⟨m2, hm2, hsub1.trans hsub2⟩

theorem mergeLoop_exists_subset :
    ∀ (fuel : ℕ) (cur : List (Finset α)) (m : Finset α),
      m ∈ mergeLoop fuel cur → ∃ s ∈ cur, s ⊆ m := by
  intro fuel
  induction fuel with
  | zero => intro cur m hm; exact ⟨m, hm, le_refl m⟩
  | succ n ih =>
      intro cur m hm
      simp only [mergeLoop] at hm
      by_cases h : (mergePass cur).length = cur.length
      · rw [if_pos h] at hm
        exact mergePass_exists_subset cur m hm
      · rw [if_neg h] at hm
        rcases ih (mergePass cur) m hm with ⟨s1, hs1, hsub1⟩
        rcases mergePass_exists_subset cur s1 hs1 with ⟨s0, hs0, hsub0⟩
        exact ⟨s0, hs0, hsub0.trans hsub1⟩

theorem mergeLoop_connClosed (L : List (Finset α)) :
    ∀ (fuel : ℕ) (cur : List (Finset α)), (∀ s ∈ cur, ConnClosed L s) →
      ∀ m ∈ mergeLoop fuel cur, ConnClosed L m := by
  intro fuel
  induction fuel with
  | zero => intro cur hcur m hm; exact hcur m hm
  | succ n ih =>
      intro cur hcur m hm
      simp only [mergeLoop] at hm
      by_cases h : (mergePass cur).length = cur.length
      · rw [if_pos h] at hm
        exact mergePass_connClosed L cur hcur m hm
      · rw [if_neg h] at hm
        exact ih (mergePass cur) (mergePass_connClosed L cur hcur) m hm

/-- The correctness bundle for `_merge_sets`: the result is pairwise
disjoint, covers the same elements, absorbs every input set, every output
contains some input set, and every output set is connected through the
overlap relation of the inputs. -/
theorem mergeSets_spec (l : List (Finset α)) :
    (mergeSets l).Pairwise (fun s t => s ∩ t = ∅) ∧
    (∀ x : α, (∃ m ∈ mergeSets l, x ∈ m) ↔ (∃ s ∈ l, x ∈ s)) ∧
    (∀ s ∈ l, ∃ m ∈ mergeSets l, s ⊆ m) ∧
    (∀ m ∈ mergeSets l, ∃ s ∈ l, s ⊆ m) ∧
    (∀ m ∈ mergeSets l, ConnClosed l m) := by
  have hinit : ∀ s ∈ l, ConnClosed l s := by
    intro s hs x hx y hy
    exact Relation.ReflTransGen.single ⟨s, hs, hx, hy⟩
  by_cases h : l.length = 0
  · rw [List.length_eq_zero] at h
    subst h
    refine ⟨List.Pairwise.nil, by simp [mergeSets], by simp, by simp [mergeSets], by simp [mergeSets]⟩
  · have hms : mergeSets l = mergeLoop (l.length + 1) l := by
      unfold mergeSets; rw [if_neg h]
    refine ⟨mergeSets_pairwise l, ?_, ?_, ?_, ?_⟩
    · intro x; rw [hms]; exact mergeLoop_mem_iff x (l.length + 1) l
    · intro s hs; rw [hms]; exact mergeLoop_subset_exists (l.length + 1) l s hs
    · intro m hm; rw [hms] at hm; exact mergeLoop_exists_subset (l.length + 1) l m hm
    · intro m hm; rw [hms] at hm; exact mergeLoop_connClosed l (l.length + 1) l hinit m hm

theorem pairwise_disjoint_mem_eq {M : List (Finset α)}
    (hp : M.Pairwise (fun s t => s ∩ t = ∅)) {m m' : Finset α}
    (hm : m ∈ M) (hm' : m' ∈ M) {x : α} (hx : x ∈ m) (hx' : x ∈ m') :
    m = m' := by
  by_contra hne
  have hsymm : Symmetric (fun s t : Finset α => s ∩ t = ∅) := by
    intro s t h
    rw [Finset.inter_comm]; exact h
  have hd := List.Pairwise.forall hsymm hp hm hm' hne
  have : x ∈ m ∩ m' := Finset.mem_inter.mpr ⟨hx, hx'⟩
  rw [hd] at this
  exact absurd this (Finset.not_mem_empty x)

/-- Connectivity never leaves a group that absorbs every overlapping
input set. -/
theorem conn_stays_in_group (l : List (Finset α)) (G1 G2 : Finset α)
    (hdisj : G1 ∩ G2 = ∅) (hcover : ∀ s ∈ l, s ⊆ G1 ∨ s ⊆ G2)
    {x y : α} (h : Conn l x y) (hx : x ∈ G1) : y ∈ G1 := by
  induction h with
  | refl => exact hx
  | tail hab hbc ih =>
      rcases hbc with ⟨s, hs, hb, hc⟩
      rcases hcover s hs with hsub | hsub
      · exact hsub hc
      · exfalso
        have : _ ∈ G1 ∩ G2 := Finset.mem_inter.mpr ⟨ih, hsub hb⟩
        rw [hdisj] at this
        exact absurd this (Finset.not_mem_empty _)

/-- Connected elements end in the same merged set. -/
theorem conn_same_merged (l : List (Finset α)) {x y : α} (h : Conn l x y)
    {m : Finset α} (hm : m ∈ mergeSets l) (hx : x ∈ m) : y ∈ m := by
  induction h with
  | refl => exact hx
  | tail hab hbc ih =>
      rcases hbc with ⟨s, hs, hb, hc⟩
      rcases (mergeSets_spec l).2.2.1 s hs with ⟨m', hm', hsub⟩
      have : m = m' :=
        pairwise_disjoint_mem_eq (mergeSets_spec l).1 hm hm' ih (hsub hb)
      rw [this]
      exact hsub hc

/-- If the input family splits into two nonempty disjoint internally
connected groups, `_merge_sets` returns exactly those two groups. -/
theorem mergeSets_two_components (l : List (Finset α)) (G1 G2 : Finset α)
    (h1ne : G1.Nonempty) (h2ne : G2.Nonempty) (hdisj : G1 ∩ G2 = ∅)
    (hne : ∀ s ∈ l, s ≠ ∅)
    (hcover : ∀ s ∈ l, s ⊆ G1 ∨ s ⊆ G2)
    (hunion : ∀ x, x ∈ G1 ∪ G2 ↔ ∃ s ∈ l, x ∈ s)
    (hconn1 : ∀ x ∈ G1, ∀ y ∈ G1, Conn l x y)
    (hconn2 : ∀ x ∈ G2, ∀ y ∈ G2, Conn l x y) :
    (mergeSets l).length = 2 ∧ G1 ∈ mergeSets l ∧ G2 ∈ mergeSets l ∧
      ∀ m ∈ mergeSets l, m = G1 ∨ m = G2 := by
  obtain ⟨hpair, hmem, hsub, hsup, hconn⟩ := mergeSets_spec l
  have hG1G2 : G1 ≠ G2 := by
    intro hEq
    obtain ⟨z, hz⟩ := h1ne
    have : z ∈ G1 ∩ G2 := Finset.mem_inter.mpr ⟨hz, hEq ▸ hz⟩
    rw [hdisj] at this
    exact absurd this (Finset.not_mem_empty z)
  have hdisj' : G2 ∩ G1 = ∅ := by rw [Finset.inter_comm]; exact hdisj
  have hcover' : ∀ s ∈ l, s ⊆ G2 ∨ s ⊆ G1 := fun s hs => (hcover s hs).symm
  -- every merged set sits inside one group
  have hside : ∀ m ∈ mergeSets l, m ⊆ G1 ∨ m ⊆ G2 := by
    intro m hm
    rcases hsup m hm with ⟨s, hs, hsm⟩
    obtain ⟨z, hz⟩ := Finset.nonempty_iff_ne_empty.mpr (hne s hs)
    have hzm : z ∈ m := hsm hz
    have hzG : z ∈ G1 ∪ G2 := (hunion z).mpr ⟨s, hs, hz⟩
    rcases Finset.mem_union.mp hzG with hzG1 | hzG2
    · left
      intro w hw
      exact conn_stays_in_group l G1 G2 hdisj hcover (hconn m hm z hzm w hw) hzG1
    · right
      intro w hw
      exact conn_stays_in_group l G2 G1 hdisj' hcover' (hconn m hm z hzm w hw) hzG2
  -- each group is itself one of the merged sets
  have hfind : ∀ G Gother : Finset α, G.Nonempty → G ∩ Gother = ∅ →
      (∀ x ∈ G, ∀ y ∈ G, Conn l x y) →
      (∀ m ∈ mergeSets l, m ⊆ G ∨ m ⊆ Gother) →
      G ⊆ G1 ∪ G2 → G ∈ mergeSets l := by
    intro G Gother hGne hGdisj hGconn hGside hGU
    obtain ⟨z, hz⟩ := hGne
    obtain ⟨s, hs, hzs⟩ := (hunion z).mp (hGU hz)
    rcases hsub s hs with ⟨m, hm, hsm⟩
    have hzm : z ∈ m := hsm hzs
    have hGm : G ⊆ m := fun w hw => conn_same_merged l (hGconn z hz w hw) hm hzm
    have hmG : m ⊆ G := by
      rcases hGside m hm with h | h
      · exact h
      · exfalso
        have : z ∈ G ∩ Gother := Finset.mem_inter.mpr ⟨hz, h hzm⟩
        rw [hGdisj] at this
        exact absurd this (Finset.not_mem_empty z)
    exact (Finset.Subset.antisymm hmG hGm) ▸ hm
  have h1mem : G1 ∈ mergeSets l :=
    hfind G1 G2 h1ne hdisj hconn1 hside (fun x hx => Finset.mem_union_left _ hx)
  have h2mem : G2 ∈ mergeSets l := by
    refine hfind G2 G1 h2ne hdisj' hconn2 ?_ (fun x hx => Finset.mem_union_right _ hx)
    intro m hm
    exact (hside m hm).symm
  have hall : ∀ m ∈ mergeSets l, m = G1 ∨ m = G2 := by
    intro m hm
    rcases hsup m hm with ⟨s, hs, hsm⟩
    obtain ⟨z, hz⟩ := Finset.nonempty_iff_ne_empty.mpr (hne s hs)
    have hzm : z ∈ m := hsm hz
    rcases hside m hm with h | h
    · exact Or.inl (pairwise_disjoint_mem_eq hpair hm h1mem hzm (h hzm))
    · exact Or.inr (pairwise_disjoint_mem_eq hpair hm h2mem hzm (h hzm))
  refine ⟨?_, h1mem, h2mem, hall⟩
  -- length: nodup list whose element set is exactly {G1, G2}
  have hnonempty : ∀ m ∈ mergeSets l, m ≠ ∅ := by
    intro m hm
    rcases hall m hm with rfl | rfl
    · exact Finset.nonempty_iff_ne_empty.mp h1ne
    · exact Finset.nonempty_iff_ne_empty.mp h2ne
  have hnodup : (mergeSets l).Nodup := by
    apply List.Pairwise.imp_of_mem ?_ hpair
    intro a b ha _ hab
    intro hEq
    apply hnonempty a ha
    rw [← hEq] at hab
    rw [Finset.inter_self] at hab
    exact hab
  have htf : (mergeSets l).toFinset = {G1, G2} := by
    ext m
    rw [List.mem_toFinset, Finset.mem_insert, Finset.mem_singleton]
    constructor
    · exact hall m
    · rintro (rfl | rfl)
      · exact h1mem
      · exact h2mem
  have := List.toFinset_card_of_nodup hnodup
  rw [htf] at this
  rw [← this]
  rw [Finset.card_insert_of_not_mem (by simpa using hG1G2), Finset.card_singleton]

/-- The nonempty per-event valid-station sets: the list handed to
`_merge_sets` inside `_find_unconnected_areas`. -/
def validAreas (events : List (ℕ × EventRes)) (i : ℕ) : List (Finset ℕ) :=
  (events.map (fun p => validSet p.2 i)).filter (fun a => a ≠ ∅)

/-- C8: if the stations with valid observations in band `i` split into two
nonempty disjoint groups, no event observes stations of both groups, and
each group is internally connected through shared-event observations, then
`_find_unconnected_areas` returns exactly two areas — the two groups —
which partition the set of stations with at least one valid observation. -/
theorem find_unconnected_two_groups (events : List (ℕ × EventRes)) (i : ℕ)
    (G1 G2 : Finset ℕ)
    (h1ne : G1.Nonempty) (h2ne : G2.Nonempty) (hdisj : G1 ∩ G2 = ∅)
    (hcover : ∀ p ∈ events, validSet p.2 i ⊆ G1 ∨ validSet p.2 i ⊆ G2)
    (hunion : G1 ∪ G2 = allValidStations events i)
    (hconn1 : ∀ x ∈ G1, ∀ y ∈ G1, Conn (validAreas events i) x y)
    (hconn2 : ∀ x ∈ G2, ∀ y ∈ G2, Conn (validAreas events i) x y) :
    (findUnconnectedAreas events i).length = 2 ∧
    G1 ∈ findUnconnectedAreas events i ∧ G2 ∈ findUnconnectedAreas events i ∧
    ∀ m ∈ findUnconnectedAreas events i, m = G1 ∨ m = G2 := by
  have hfind : findUnconnectedAreas events i = mergeSets (validAreas events i) := rfl
  rw [hfind]
  apply mergeSets_two_components (validAreas events i) G1 G2 h1ne h2ne hdisj
  · intro s hs
    have := (List.mem_filter.mp hs).2
    simpa using this
  · intro s hs
    rcases List.mem_filter.mp hs with ⟨hmap, _⟩
    rcases List.mem_map.mp hmap with ⟨p, hp, rfl⟩
    exact hcover p hp
  · intro x
    rw [show (x ∈ G1 ∪ G2 ↔ x ∈ allValidStations events i) from by rw [hunion]]
    rw [mem_allValidStations]
    constructor
    · rintro ⟨p, hp, hx⟩
      refine ⟨validSet p.2 i, List.mem_filter.mpr ⟨List.mem_map_of_mem _ hp, ?_⟩, hx⟩
      simpa using Finset.ne_empty_of_mem hx
    · rintro ⟨s, hs, hx⟩
      rcases List.mem_filter.mp hs with ⟨hmap, _⟩
      rcases List.mem_map.mp hmap with ⟨p, hp, rfl⟩
      exact ⟨p, hp, hx⟩
  · exact hconn1
  · exact hconn2

/-! A decidable certificate for connectivity, used to discharge the
connectivity hypotheses on concrete inputs. -/

def connStep (L : List (Finset α)) (s : Finset α) : Finset α :=
  s ∪ (L.filter (fun t => t ∩ s ≠ ∅)).foldr (· ∪ ·) ∅

def connClosure (L : List (Finset α)) : ℕ → Finset α → Finset α
  | 0, s => s
  | n + 1, s => connClosure L n (connStep L s)

theorem mem_foldr_union (z : α) :
    ∀ l : List (Finset α), (z ∈ l.foldr (· ∪ ·) ∅ ↔ ∃ t ∈ l, z ∈ t) := by
  intro l
  induction l with
  | nil => simp
  | cons t rest ih =>
      simp only [List.foldr_cons, Finset.mem_union, ih]
      constructor
      · rintro (h | ⟨u, hu, hz⟩)
        · exact ⟨t, List.mem_cons_self _ _, h⟩
        · exact ⟨u, List.mem_cons_of_mem _ hu, hz⟩
      · rintro ⟨u, hu, hz⟩
        rcases List.mem_cons.mp hu with rfl | hu
        · exact Or.inl hz
        · exact Or.inr ⟨u, hu, hz⟩

theorem connStep_sound (L : List (Finset α)) (x : α) (s : Finset α)
    (hs : ∀ z ∈ s, Conn L x z) : ∀ z ∈ connStep L s, Conn L x z := by
  intro z hz
  rcases Finset.mem_union.mp hz with hz | hz
  · exact hs z hz
  · rcases (mem_foldr_union z _).mp hz with ⟨t, ht, hzt⟩
    rcases List.mem_filter.mp ht with ⟨htL, htne⟩
    have htne' : t ∩ s ≠ ∅ := by simpa using htne
    obtain ⟨w, hw⟩ := Finset.nonempty_iff_ne_empty.mpr htne'
    rw [Finset.mem_inter] at hw
    exact (hs w hw.2).tail ⟨t, htL, hw.1, hzt⟩

theorem connClosure_sound (L : List (Finset α)) (x : α) :
    ∀ (n : ℕ) (s : Finset α), (∀ z ∈ s, Conn L x z) →
      ∀ z ∈ connClosure L n s, Conn L x z := by
  intro n
  induction n with
  | zero => intro s hs z hz; exact hs z hz
  | succ m ih => intro s hs z hz; exact ih (connStep L s) (connStep_sound L x s hs) z hz

theorem conn_of_closure (L : List (Finset α)) (x y : α) (n : ℕ)
    (h : y ∈ connClosure L n {x}) : Conn L x y := by
  refine connClosure_sound L x n {x} ?_ y h
  intro z hz
  rw [Finset.mem_singleton] at hz
  rw [hz]
  exact Relation.ReflTransGen.refl

/-- Concrete input for the C8 witness: events observing {0,1}, {1,2} and
{5,6}; two connected groups {0,1,2} and {5,6}. -/
def cEventsC8 : List (ℕ × EventRes) :=
  [(0, ⟨[some 1], [(0, [some 1]), (1, [some 1])]⟩),
   (1, ⟨[some 1], [(1, [some 1]), (2, [some 1])]⟩),
   (2, ⟨[some 1], [(5, [some 1]), (6, [some 1])]⟩)]

/-- Witness for C8 at the concrete two-group input. -/
theorem find_unconnected_two_groups_witness :
    (({0, 1, 2} : Finset ℕ).Nonempty ∧ ({5, 6} : Finset ℕ).Nonempty ∧
      ({0, 1, 2} : Finset ℕ) ∩ {5, 6} = ∅) ∧
    ((findUnconnectedAreas cEventsC8 0).length = 2 ∧
     ({0, 1, 2} : Finset ℕ) ∈ findUnconnectedAreas cEventsC8 0 ∧
     ({5, 6} : Finset ℕ) ∈ findUnconnectedAreas cEventsC8 0 ∧
     ∀ m ∈ findUnconnectedAreas cEventsC8 0,
       m = ({0, 1, 2} : Finset ℕ) ∨ m = ({5, 6} : Finset ℕ)) := by
  have hc1 : ∀ x ∈ ({0, 1, 2} : Finset ℕ), ∀ y ∈ ({0, 1, 2} : Finset ℕ),
      y ∈ connClosure (validAreas cEventsC8 0) 3 {x} := by decide
  have hc2 : ∀ x ∈ ({5, 6} : Finset ℕ), ∀ y ∈ ({5, 6} : Finset ℕ),
      y ∈ connClosure (validAreas cEventsC8 0) 3 {x} := by decide
  refine ⟨⟨by decide, by decide, by decide⟩, ?_⟩
  exact find_unconnected_two_groups cEventsC8 0 {0, 1, 2} {5, 6}
    (by decide) (by decide) (by decide) (by decide) (by decide)
    (fun x hx y hy => conn_of_closure _ x y 3 (hc1 x hx y hy))
    (fun x hx y hy => conn_of_closure _ x y 3 (hc2 x hx y hy))

/-! ### `align_site_responses` (site.py lines 167-305), claims C7 and C10

The per-band solve (`np.log` of the stored values, `lsmr`/`lstsq`,
`np.exp`) is abstracted by the `solver` parameter, which receives the
effective sparse/dense flag and the assembled rows and returns the
per-event factors; the claims settled at this level (C7, C10) hold for
every solver.  `calculate_source_properties` is an external collaborator
recomputing fields (`omM`, `M0`, `Mw`) that are outside the modelled
record, so it acts as the identity on the modelled fields. -/

inductive AlignError where
  | notImplemented
  | valueError
  | assertionError
deriving DecidableEq

/-- `_get_number_of_freqs` (site.py lines 48-55): asserts that all events
report the same number of bands.  An empty event dict yields `Nf = None`,
which makes the caller's `range(Nf)` raise; both failure modes are error
outcomes of the call. -/
def getNf : List (ℕ × EventRes) → Except AlignError ℕ
  | [] => .error .valueError
  | e :: rest =>
      if rest.all (fun p => p.2.W.length = e.2.W.length) then .ok e.2.W.length
      else .error .assertionError

/-- `align_site_responses`.  Modelled from the spec: the input
contract's `bridging_max_distance` option (an optional positive distance
in kilometers; omission/None disables bridging) is the internal
`join_unconnected` distance of lines 184-188 and 225-227 — the only
bridging control in the code.  The source hardcodes
`join_unconnected = None` (line 184), i.e. the omitted-option case, so
`bridgingMaxDistance` binds directly to that flag: a present distance
takes the guarded branch of lines 185-188, which raises
`NotImplementedError` before any per-band work.  The per-band
`max(areas, ...)` raises `ValueError` when a band has no valid
observation at all; since `_rescale_results` runs only after every band
has been solved, any such band prevents any rescaling, which the upfront
check models. -/
def alignSiteResponses (solver : Bool → List SystemRow → ℕ → ℚ)
    (results : Results) (station : Option ℕ) (ρ : ℚ) (useSparse : Bool)
    (bridgingMaxDistance : Option ℚ) : Except AlignError Results :=
  let evs := results.events.filterMap (fun p => p.2.map (fun e => (p.1, e)))
  let joinUnconnected := bridgingMaxDistance
  if joinUnconnected.isSome then .error .notImplemented
  else
    match getNf evs with
    | .error e => .error e
    | .ok Nf =>
        if (List.range Nf).all (fun i => !(findUnconnectedAreas evs i).isEmpty) then
          .ok ⟨(rescaleResults evs
            (fun k i => solver (effectiveUseSparse evs useSparse)
              (buildSystem evs i station ρ) k)).map (fun p => (p.1, some p.2))⟩
        else .error .valueError

/-- C7: a call to `align_site_responses` that requests area bridging
through the input contract's `bridging_max_distance` option fails with
the "not implemented" error raised at site.py lines 185-188 before any
per-band computation: the error is surfaced to the caller, no result is
produced, and no energy or amplification value is rescaled (the
`.error` outcome carries no partial result set). -/
theorem align_bridging_not_implemented (solver : Bool → List SystemRow → ℕ → ℚ)
    (results : Results) (station : Option ℕ) (ρ : ℚ) (useSparse : Bool)
    (d : ℚ) :
    alignSiteResponses solver results station ρ useSparse (some d) =
      .error .notImplemented := rfl

def cSolverC10 : Bool → List SystemRow → ℕ → ℚ := fun _ _ _ => 1

/-! C10: dropping the `None` event records. -/

theorem filterMap_keys (l : List (ℕ × Option EventRes)) :
    (l.filterMap (fun p => p.2.map (fun e => (p.1, e)))).map Prod.fst =
      (l.filter (fun p => p.2.isSome)).map Prod.fst := by
  induction l with
  | nil => rfl
  | cons p rest ih =>
      cases hp : p.2 with
      | none => simp [List.filterMap_cons, List.filter_cons, hp, ih]
      | some e => simp [List.filterMap_cons, List.filter_cons, hp, ih]

theorem filterMap_of_filter (l : List (ℕ × Option EventRes)) :
    (l.filter (fun p => p.2.isSome)).filterMap (fun p => p.2.map (fun e => (p.1, e))) =
      l.filterMap (fun p => p.2.map (fun e => (p.1, e))) := by
  induction l with
  | nil => rfl
  | cons p rest ih =>
      cases hp : p.2 with
      | none => simp [List.filter_cons, List.filterMap_cons, hp, ih]
      | some e => simp [List.filter_cons, List.filterMap_cons, hp, ih]

theorem rescaleGo_keys (factors : ℕ → ℕ → ℚ) :
    ∀ (n : ℕ) (evs : List (ℕ × EventRes)),
      (rescaleGo factors n evs).map Prod.fst = evs.map Prod.fst := by
  intro n evs
  induction evs generalizing n with
  | nil => rfl
  | cons p rest ih => simp [rescaleGo, ih]

/-- C10: `align_site_responses` first drops every event whose record is
`None`; the returned result set carries exactly the remaining events (in
order, each with a present record), and the whole computation behaves as
if the input had been pre-filtered. -/
theorem align_drops_none_events (solver : Bool → List SystemRow → ℕ → ℚ)
    (results : Results) (station : Option ℕ) (ρ : ℚ) (useSparse : Bool)
    (bridgingMaxDistance : Option ℚ) (out : Results)
    (h : alignSiteResponses solver results station ρ useSparse bridgingMaxDistance =
      .ok out) :
    out.events.map Prod.fst =
      (results.events.filter (fun p => p.2.isSome)).map Prod.fst ∧
    (∀ p ∈ out.events, p.2.isSome) ∧
    alignSiteResponses solver results station ρ useSparse bridgingMaxDistance =
      alignSiteResponses solver ⟨results.events.filter (fun p => p.2.isSome)⟩
        station ρ useSparse bridgingMaxDistance := by
  have hsame : alignSiteResponses solver results station ρ useSparse bridgingMaxDistance =
      alignSiteResponses solver ⟨results.events.filter (fun p => p.2.isSome)⟩
        station ρ useSparse bridgingMaxDistance := by
    unfold alignSiteResponses
    rw [filterMap_of_filter]
  have hout : out.events =
      ((rescaleResults (results.events.filterMap (fun p => p.2.map (fun e => (p.1, e))))
        (fun k i => solver
          (effectiveUseSparse
            (results.events.filterMap (fun p => p.2.map (fun e => (p.1, e)))) useSparse)
          (buildSystem
            (results.events.filterMap (fun p => p.2.map (fun e => (p.1, e)))) i station ρ)
          k)).map (fun p => (p.1, some p.2))) := by
    simp only [alignSiteResponses] at h
    split at h
    · exact Except.noConfusion h
    · split at h
      · exact Except.noConfusion h
      · split at h
        · injection h with h2
          rw [← h2]
        · exact Except.noConfusion h
  refine ⟨?_, ?_, hsame⟩
  · rw [hout, List.map_map,
      show (Prod.fst ∘ fun p : ℕ × EventRes => (p.1, some p.2)) =
        (Prod.fst : ℕ × EventRes → ℕ) from rfl,
      rescaleResults, rescaleGo_keys, filterMap_keys]
  · intro p hp
    rw [hout] at hp
    rcases List.mem_map.mp hp with ⟨q, _, rfl⟩
    rfl

/-- Concrete input of the C10 witness: one live event and one `None`
record. -/
def cResultsC10 : Results :=
  ⟨[(7, some ⟨[none], [(1, [some 2])]⟩), (8, none)]⟩

/-- Witness for C10. -/
theorem align_drops_none_events_witness :
    alignSiteResponses cSolverC10 cResultsC10 none 0 true none =
      .ok ⟨[(7, some ⟨[none], [(1, [some 2])]⟩)]⟩ ∧
    ((Results.mk [(7, some ⟨[none], [(1, [some 2])]⟩)]).events.map Prod.fst =
      (cResultsC10.events.filter (fun p => p.2.isSome)).map Prod.fst ∧
     (∀ p ∈ (Results.mk [(7, some ⟨[none], [(1, [some 2])]⟩)]).events, p.2.isSome) ∧
     alignSiteResponses cSolverC10 cResultsC10 none 0 true none =
      alignSiteResponses cSolverC10 ⟨cResultsC10.events.filter (fun p => p.2.isSome)⟩
        none 0 true none) :=
  ⟨by decide,
   align_drops_none_events cSolverC10 cResultsC10 none 0 true none
     ⟨[(7, some ⟨[none], [(1, [some 2])]⟩)]⟩ (by decide)⟩

end Qopen
